import Mathlib

/-!
Verification of the xsessionp window-orchestration logic
(`xsessionp/xsessionp.py`) against its natural-language specification.

The Python code is shallowly embedded: Python dictionaries parsed from a
YAML/JSON configuration document become association lists, Python values
become the inductive type `PyVal`, and the decision logic of each source
function is translated branch by branch.  Backend X11 primitives
(window enumeration, property reads, traversal) are side-effecting calls
into the display server; they enter the model as explicit parameters
holding the values those calls would return.
-/

namespace Xsessionp

/-- Keys of a Python dictionary as they occur in the `load` code path.
Keys parsed from a YAML/JSON document are always strings (`str s`).
`builtinId` denotes the Python builtin function `id`: the expression
`id in windows[0]` on line 353 of `xsessionp.py` tests membership of that
function object (not of the string "id") among the dictionary keys, so the
key type must be able to distinguish the two. -/
inductive PyKey where
  | str (s : String)
  | builtinId
deriving DecidableEq, Repr

/-- Python values occurring in window-configuration dictionaries: strings,
arbitrary-precision integers, booleans, `None`, lists, and nested
dictionaries. -/
inductive PyVal where
  | vstr (s : String)
  | vint (n : Int)
  | vbool (b : Bool)
  | vnull
  | vlist (xs : List PyVal)
  | vdict (entries : List (PyKey × PyVal))

/-- A Python dictionary, embedded as an association list in insertion
order.  Dictionaries produced by the YAML/JSON parser have pairwise
distinct keys. -/
abbrev PyDict := List (PyKey × PyVal)

/-- Dictionary lookup, `d[k]` / `d.get(k)`: the value of the first entry
whose key equals `k` (keys are unique in genuine Python dictionaries). -/
def dictGet (d : PyDict) (k : PyKey) : Option PyVal :=
  match d with
  | [] => none
  | (k', v) :: rest => if k' = k then some v else dictGet rest k

/-- Python membership test `k in d` on a dictionary. -/
def dictContains (d : PyDict) (k : PyKey) : Bool :=
  (dictGet d k).isSome

/-- Python assignment `d[k] = v`: replaces the value in place if the key
exists (position preserved), otherwise appends a new entry. -/
def dictSet (d : PyDict) (k : PyKey) (v : PyVal) : PyDict :=
  match d with
  | [] => [(k, v)]
  | (k', v') :: rest =>
    if k' = k then (k', v) :: rest else (k', v') :: dictSet rest k v

/-- Python truthiness, `bool(v)`: empty strings, zero, `False`, `None`,
and empty containers are falsy; everything else is truthy. -/
def truthy (v : PyVal) : Bool :=
  match v with
  | .vstr s => s ≠ ""
  | .vint n => n ≠ 0
  | .vbool b => b
  | .vnull => false
  | .vlist xs => ¬xs.isEmpty
  | .vdict d => ¬d.isEmpty

/-- `XSessionp.key_enabled` (xsessionp.py lines 186-189):
`key in window and f"no_{key}" not in window`.  A key is enabled iff it is
present and its disabler `no_<key>` is absent; the stored values are never
inspected. -/
def key_enabled (key : String) (window : PyDict) : Bool :=
  dictContains window (.str key) && !dictContains window (.str ("no_" ++ key))

/-- Keys of a dictionary, in order. -/
def dictKeys (d : PyDict) : List PyKey := d.map Prod.fst

theorem dictGet_isSome_iff_mem_keys (d : PyDict) (k : PyKey) :
    (dictGet d k).isSome = true ↔ k ∈ dictKeys d := by
  induction d with
  | nil => simp [dictGet, dictKeys]
  | cons kv rest ih =>
    obtain ⟨k', v⟩ := kv
    by_cases hk : k' = k
    · subst hk
      simp [dictGet, dictKeys]
    · simp only [dictGet, hk, if_neg, dictKeys, List.map_cons, List.mem_cons]
      rw [dictKeys] at ih
      simp [ih, hk, Ne.symm hk]

theorem dictGet_congr_keys (d₁ d₂ : PyDict) (k : PyKey)
    (h : dictKeys d₁ = dictKeys d₂) :
    (dictGet d₁ k).isSome = (dictGet d₂ k).isSome := by
  have h₁ := dictGet_isSome_iff_mem_keys d₁ k
  have h₂ := dictGet_isSome_iff_mem_keys d₂ k
  rw [h] at h₁
  by_cases hm : k ∈ dictKeys d₂
  · rw [h₁.mpr hm, h₂.mpr hm]
  · rcases hb : (dictGet d₁ k).isSome with _ | _
    · rcases hb' : (dictGet d₂ k).isSome with _ | _
      · rfl
      · exact absurd (h₂.mp hb') hm
    · exact absurd (h₁.mp hb) hm

/-- C5: `key_enabled` returns true iff the key is present and its
`no_`-disabler is absent, for every key and window configuration; the
result depends only on which keys are present, never on the truthiness of
any stored value (windows agreeing on their key sets agree on
`key_enabled`). -/
theorem key_enabled_iff_present_and_disabler_absent (k : String) (window : PyDict) :
    (key_enabled k window = true ↔
      (PyKey.str k ∈ dictKeys window ∧ PyKey.str ("no_" ++ k) ∉ dictKeys window)) ∧
    (∀ window₂ : PyDict, dictKeys window = dictKeys window₂ →
      key_enabled k window = key_enabled k window₂) := by
  constructor
  · rw [key_enabled, dictContains, dictContains]
    rw [Bool.and_eq_true, Bool.not_eq_true']
    have h₁ := dictGet_isSome_iff_mem_keys window (.str k)
    have h₂ := dictGet_isSome_iff_mem_keys window (.str ("no_" ++ k))
    constructor
    · rintro ⟨ha, hb⟩
      refine ⟨h₁.mp ha, fun hmem => ?_⟩
      rw [h₂.mpr hmem] at hb
      exact absurd hb (by simp)
    · rintro ⟨ha, hb⟩
      refine ⟨h₁.mpr ha, ?_⟩
      rcases hx : (dictGet window (PyKey.str ("no_" ++ k))).isSome with _ | _
      · rfl
      · exact absurd (h₂.mp hx) hb
  · intro window₂ hkeys
    rw [key_enabled, key_enabled, dictContains, dictContains, dictContains, dictContains]
    rw [dictGet_congr_keys window window₂ _ hkeys,
      dictGet_congr_keys window window₂ _ hkeys]

/-- Witness for C5 at a concrete configuration: `disabled` is enabled in
a window holding a falsy value `disabled: false` without `no_disabled`,
and not enabled once `no_disabled` is present. -/
theorem key_enabled_witness :
    (key_enabled "disabled" [(.str "disabled", .vbool false)] = true) ∧
    (key_enabled "disabled"
      [(.str "disabled", .vbool true), (.str "no_disabled", .vbool false)] = false) := by
  have h₁ := (key_enabled_iff_present_and_disabler_absent "disabled"
    [(.str "disabled", .vbool false)]).1
  have h₂ := (key_enabled_iff_present_and_disabler_absent "disabled"
    [(.str "disabled", .vbool true), (.str "no_disabled", .vbool false)]).1
  constructor
  · exact h₁.mpr (by constructor <;> simp [dictKeys])
  · rcases hb : key_enabled "disabled"
      [(.str "disabled", .vbool true), (.str "no_disabled", .vbool false)] with _ | _
    · rfl
    · exact absurd ((h₂.mp hb).2) (by simp [dictKeys])

/-! ## Final-focus step of `XSessionp.load` (lines 341-354)

After all entries are processed, `load` collects the entries whose `focus`
toggle is enabled and truthy.  With more than one such entry it logs an
error and activates nothing.  With at least one it evaluates
`len(windows) > 0 and id in windows[0]` — where `id` is the Python
*builtin function*, not the string `"id"` — and only then activates
`windows[0]["id"]`. -/

/-- The sub-list of window configurations whose `focus` key is enabled and
truthy: `[w for w in config["windows"] if self.key_enabled(key="focus",
window=w) and bool(w["focus"])]` (lines 343-347). -/
def load_focus_windows (windows : List PyDict) : List PyDict :=
  windows.filter
    (fun w => key_enabled "focus" w && truthy ((dictGet w (.str "focus")).getD .vnull))

/-- Lines 348-354 of `load`: the first component is the id value passed to
`set_window_active` (or `none` when no activation happens), the second
records whether the too-many-focusable-windows error was logged.  The
activation guard is the literal source condition
`len(windows) > 0 and id in windows[0]`, with `id` the builtin. -/
def load_final_focus (windows : List PyDict) : Option PyVal × Bool :=
  let ws := load_focus_windows windows
  if 1 < ws.length then (none, true)
  else
    match ws with
    | [] => (none, false)
    | w :: _ =>
      (if dictContains w PyKey.builtinId then dictGet w (.str "id") else none, false)

theorem load_final_focus_no_builtin_key (windows : List PyDict)
    (h : ∀ w ∈ windows, PyKey.builtinId ∉ dictKeys w) :
    (load_final_focus windows).1 = none := by
  rw [load_final_focus]
  by_cases hlen : 1 < (load_focus_windows windows).length
  case pos => simp [hlen]
  case neg =>
    rw [if_neg hlen]
    rcases hws : load_focus_windows windows with _ | ⟨w, rest⟩
    · simp
    · have hw : w ∈ windows := by
        have : w ∈ load_focus_windows windows := by rw [hws]; exact List.mem_cons_self w rest
        exact List.mem_of_mem_filter this
      have hk : PyKey.builtinId ∉ dictKeys w := h w hw
      have : dictContains w PyKey.builtinId = false := by
        rcases hb : dictContains w PyKey.builtinId with _ | _
        · rfl
        · rw [dictContains] at hb
          exact absurd ((dictGet_isSome_iff_mem_keys w PyKey.builtinId).mp hb) hk
      simp [this]

/-- C3 (code bug): a configuration with exactly one entry requesting
`focus: true`, successfully resolved to backend id 42, activates nothing:
the source guard `id in windows[0]` tests membership of the Python builtin
function `id` among the (string) keys, which never holds, so
`set_window_active` is unreachable.  The specified behaviour — activating
the window — therefore does not occur, although the entry does qualify for
focus (second conjunct) and carries the resolved id (third conjunct).
The over-focused error path, by contrast, behaves as specified (fourth
conjunct). -/
theorem load_final_focus_code_bug :
    (load_final_focus
        [[(.str "command", .vstr "xclock"), (.str "focus", .vbool true),
          (.str "id", .vint 42)]] = (none, false)) ∧
    (load_focus_windows
        [[(.str "command", .vstr "xclock"), (.str "focus", .vbool true),
          (.str "id", .vint 42)]]).length = 1 ∧
    (dictGet [(.str "command", .vstr "xclock"), (.str "focus", .vbool true),
        (.str "id", .vint 42)] (.str "id") = some (.vint 42)) ∧
    (load_final_focus
        [[(.str "focus", .vbool true), (.str "id", .vint 5)],
         [(.str "focus", .vbool true), (.str "id", .vint 6)]] = (none, true)) := by
  refine ⟨rfl, rfl, rfl, rfl⟩

/-! ## `XSessionp.sanitize_config` (lines 383-397) and the tagging step of
`load` (lines 318-331) -/

/-- The window-configuration list of a document, `config["windows"]`.
The source iterates it assuming every element is a dictionary; non-dict
elements (which would raise in Python) are dropped by the embedding. -/
def config_windows (config : PyDict) : List PyDict :=
  match dictGet config (.str "windows") with
  | some (.vlist ws) =>
    ws.filterMap (fun w => match w with | .vdict d => some d | _ => none)
  | _ => []

/-- Warning logged by `sanitize_config` when a user-supplied `id` is
detected. -/
def id_warning : String := "Reserved attribute id defined by user; ignoring ..."

/-- `XSessionp.sanitize_config`: pops the invalid global keys `focus` and
`name` (warning for each), then warns — touching no data — if
`any((window.get("id") for window in config["windows"]))`, i.e. if some
window holds a *truthy* `id` value.  Returns the sanitized configuration
together with the warnings logged. -/
def sanitize_config (config : PyDict) : PyDict × List String :=
  let globalWarnings :=
    (["focus", "name"].filter (fun g => dictContains config (.str g))).map
      (fun g => "Global attribute " ++ g ++ " is invalid; removing ...")
  let config' := config.filter
    (fun kv => decide (kv.1 ≠ PyKey.str "focus" ∧ kv.1 ≠ PyKey.str "name"))
  let idWarnings :=
    if (config_windows config').any
        (fun w => truthy ((dictGet w (.str "id")).getD .vnull))
    then [id_warning] else []
  (config', globalWarnings ++ idWarnings)

/-- Lines 319-331 of `load`: `window["id"]` is overwritten with the value
returned by `guess_window`; if that value is `None` the entry is abandoned
(`continue`) and no metadata is written, otherwise the updated dictionary
is what gets serialized onto the window.  The return value is the
dictionary whose serialization is written, if any. -/
def load_tag_window (window : PyDict) (guessed : Option Int) : Option PyDict :=
  match guessed with
  | none => none
  | some gid => some (dictSet window (.str "id") (.vint gid))

theorem dictGet_filter_of_keep (p : PyKey × PyVal → Bool) (d : PyDict) (k : PyKey)
    (h : ∀ v, p (k, v) = true) : dictGet (d.filter p) k = dictGet d k := by
  induction d with
  | nil => rfl
  | cons kv rest ih =>
    obtain ⟨k', v⟩ := kv
    by_cases hk : k' = k
    · subst hk
      rw [List.filter_cons, h v]
      simp [dictGet]
    · rw [List.filter_cons]
      rcases hp : p (k', v) with _ | _
      · simpa [dictGet, hk] using ih
      · simpa [dictGet, hk] using ih

theorem dictGet_dictSet_self (d : PyDict) (k : PyKey) (v : PyVal) :
    dictGet (dictSet d k v) k = some v := by
  induction d with
  | nil => simp [dictSet, dictGet]
  | cons kv rest ih =>
    obtain ⟨k', v'⟩ := kv
    by_cases hk : k' = k
    · subst hk
      simp [dictSet, dictGet]
    · simp [dictSet, hk, dictGet, ih]

/-- C7 amended: sanitization warns about a user-supplied `id` exactly when
some window entry holds a *truthy* `id` value (falsy values such as `0` or
`null` pass silently); the sanitized document's `windows` data is
untouched; and for every window tagged during `load` the `id` recorded in
the written metadata is precisely the backend id resolved by the matcher,
whatever `id` the user supplied. -/
theorem sanitize_config_and_tag_id (config window : PyDict) (gid : Int) (d : PyDict)
    (h : load_tag_window window (some gid) = some d) :
    (id_warning ∈ (sanitize_config config).2 ↔
      ∃ w ∈ config_windows (sanitize_config config).1,
        truthy ((dictGet w (.str "id")).getD .vnull) = true) ∧
    dictGet (sanitize_config config).1 (.str "windows") =
      dictGet config (.str "windows") ∧
    dictGet d (.str "id") = some (.vint gid) := by
  refine ⟨?_, ?_, ?_⟩
  · rw [sanitize_config]
    simp only [List.mem_append]
    constructor
    · rintro (hmem | hmem)
      · exfalso
        simp only [List.mem_map, List.mem_filter] at hmem
        obtain ⟨g, ⟨hg, -⟩, heq⟩ := hmem
        simp only [List.mem_cons, List.not_mem_nil, or_false] at hg
        rcases hg with rfl | rfl
        · exact absurd heq (by decide)
        · exact absurd heq (by decide)
      · rcases hany : (config_windows (config.filter
            (fun kv => decide (kv.1 ≠ PyKey.str "focus" ∧ kv.1 ≠ PyKey.str "name")))).any
            (fun w => truthy ((dictGet w (.str "id")).getD .vnull)) with _ | _
        · rw [hany] at hmem
          exact absurd hmem (List.not_mem_nil _)
        · rw [List.any_eq_true] at hany
          obtain ⟨w, hw, ht⟩ := hany
          exact ⟨w, hw, ht⟩
    · rintro ⟨w, hw, ht⟩
      right
      have hany : (config_windows (config.filter
          (fun kv => decide (kv.1 ≠ PyKey.str "focus" ∧ kv.1 ≠ PyKey.str "name")))).any
          (fun w => truthy ((dictGet w (.str "id")).getD .vnull)) = true :=
        List.any_eq_true.mpr ⟨w, hw, ht⟩
      rw [hany]
      exact List.mem_singleton.mpr rfl
  · rw [sanitize_config]
    exact dictGet_filter_of_keep _ config (.str "windows") (fun v => by simp)
  · rw [load_tag_window] at h
    injection h with h
    rw [← h]
    exact dictGet_dictSet_self window _ _

/-- C7 counterexample: a document whose single window supplies the
reserved key `id` with the falsy value `0` produces no warning at all —
refuting the claim that a user-supplied `id` is (always) warned about
during sanitization. -/
theorem sanitize_config_silent_on_falsy_id :
    (dictGet
        [(.str "command", .vstr "xclock"), (.str "id", .vint 0)]
        (.str "id")).isSome = true ∧
    (sanitize_config
        [(.str "windows", .vlist [.vdict
          [(.str "command", .vstr "xclock"), (.str "id", .vint 0)]])]).2 = [] := by
  exact ⟨rfl, rfl⟩

/-- Witness for the amended C7 theorem at a concrete document: a truthy
user id (7) is warned about, the windows list survives sanitization
verbatim, and tagging with backend id 42 stores 42 — overriding the
user-supplied 7. -/
theorem sanitize_config_and_tag_id_witness :
    id_warning ∈ (sanitize_config
      [(.str "windows", .vlist [.vdict
        [(.str "command", .vstr "xclock"), (.str "id", .vint 7)]])]).2 ∧
    dictGet
      [(.str "command", .vstr "xclock"), (.str "id", .vint 7),
       (.str "focus", .vbool true)]
      (.str "id") = some (.vint 7) ∧
    dictGet (dictSet
      [(.str "command", .vstr "xclock"), (.str "id", .vint 7),
       (.str "focus", .vbool true)] (.str "id") (.vint 42))
      (.str "id") = some (.vint 42) := by
  have h := sanitize_config_and_tag_id
    [(.str "windows", .vlist [.vdict
      [(.str "command", .vstr "xclock"), (.str "id", .vint 7)]])]
    [(.str "command", .vstr "xclock"), (.str "id", .vint 7),
     (.str "focus", .vbool true)]
    42
    (dictSet [(.str "command", .vstr "xclock"), (.str "id", .vint 7),
      (.str "focus", .vbool true)] (.str "id") (.vint 42))
    rfl
  refine ⟨h.1.mpr ?_, rfl, h.2.2⟩
  exact ⟨[(.str "command", .vstr "xclock"), (.str "id", .vint 7)],
    List.Mem.head _, by decide⟩

/-! ## Entry filtering in `XSessionp.load` (lines 253-266)

`load` iterates `enumerate(config["windows"])`; after default names are
assigned it skips an entry when `indices and i not in indices`, and then
— independently — when `names and not any(name.match(window["name"]) for
name in names)`.  Name patterns are embedded as boolean predicates on the
entry name. -/

/-- The per-entry filter decision of `load`: an entry at position `i`
with name `name` survives iff it passes the index filter (vacuous when no
indices are given) and also the name filter (vacuous when no names are
given). -/
def load_filter_keeps (indices : List Nat) (names : List (String → Bool))
    (i : Nat) (name : String) : Bool :=
  (indices.isEmpty || indices.contains i) &&
    (names.isEmpty || names.any (fun p => p name))

/-- The positions of the entries `load` selects for processing, given the
(already named) entries of the document. -/
def load_selected (indices : List Nat) (names : List (String → Bool))
    (entryNames : List String) : List Nat :=
  ((entryNames.enum).filter
    (fun p => load_filter_keeps indices names p.1 p.2)).map Prod.fst

/-- C6 counterexample: with entries 0,1,2 named "a","b","c", the index
selector `[0]`, and a name selector matching only entry 2's name "c",
`load` selects nothing — not `[0]` as claimed: entry 0 passes the index
filter but is then discarded by the name filter, and entries 1 and 2 are
discarded by the index filter. -/
theorem load_selected_counterexample :
    load_selected [0] [fun s => s == "c"] ["a", "b", "c"] ≠ [0] := by
  intro h
  exact absurd h (by decide)

/-- C6 amended: the index filter and the name filter are both applied —
an entry is selected iff it passes the index filter AND the name filter;
an entry excluded by the index filter is never reconsidered by name.  In
the claimed scenario (indices [0,1,2], index selector containing only 0,
name selector matching only entry 2) the selected set is therefore empty,
not the singleton 0. -/
theorem load_selected_mem_iff (indices : List Nat) (names : List (String → Bool))
    (entryNames : List String) (i : Nat) :
    i ∈ load_selected indices names entryNames ↔
      ∃ name, entryNames[i]? = some name ∧
        (indices.isEmpty || indices.contains i) = true ∧
        (names.isEmpty || names.any (fun p => p name)) = true := by
  rw [load_selected]
  simp only [List.mem_map, List.mem_filter, List.mem_enum_iff_getElem?]
  constructor
  · rintro ⟨⟨j, name⟩, ⟨hget, hkeep⟩, rfl⟩
    rw [load_filter_keeps, Bool.and_eq_true] at hkeep
    exact ⟨name, hget, hkeep.1, hkeep.2⟩
  · rintro ⟨name, hget, h₁, h₂⟩
    refine ⟨(i, name), ⟨hget, ?_⟩, rfl⟩
    rw [load_filter_keeps, Bool.and_eq_true]
    exact ⟨h₁, h₂⟩

/-! ## `XSessionp.guess_window` (lines 101-173)

The matcher works on a candidate list produced by `launch_command`.  Its
backend calls enter the model as data: `parents` (resp. `children`) holds
the window ids that `_traverse_parents` (resp. `_traverse_children`) with
`matcher=must_have_state, max_results=1` would return, and `titleMatch`
is the predicate `lambda name: re.compile(title_hint).match(name)`.
A candidate whose displayed name cannot be read — `get_window_name`
returning `None`, or the window vanishing mid-read with `BadWindow` —
carries `name = none` and is skipped. -/

/-- A candidate window: native id plus readable displayed name, if any. -/
structure CandidateWindow where
  id : Nat
  name : Option String

/-- `TypingWindowMetadata`: the `(id, name)` records accumulated in the
`guesses` list. -/
structure WindowMetadata where
  id : Nat
  name : String

/-- Stable insertion for a descending sort on ids; an element is placed
before every element with a strictly smaller id and after the
originally-earlier elements with an equal or larger id — the ordering
`sorted(guesses, key=lambda x: x.id, reverse=True)` produces. -/
def insertDescById (x : WindowMetadata) (l : List WindowMetadata) : List WindowMetadata :=
  match l with
  | [] => [x]
  | y :: ys => if y.id ≤ x.id then x :: y :: ys else y :: insertDescById x ys

/-- Stable descending sort by id, modelling
`sorted(guesses, key=lambda x: x.id, reverse=True)`. -/
def sortDescById (l : List WindowMetadata) : List WindowMetadata :=
  match l with
  | [] => []
  | x :: xs => insertDescById x (sortDescById xs)

/-- The `guesses` list of `guess_window` (lines 149-157): candidates whose
name could be read and matches the title hint, in candidate order. -/
def guess_window_guesses (titleMatch : String → Bool)
    (windows : List CandidateWindow) : List WindowMetadata :=
  windows.filterMap (fun w =>
    match w.name with
    | some n => if titleMatch n then some (WindowMetadata.mk w.id n) else none
    | none => none)

/-- `XSessionp.guess_window`: empty candidate list → `None`; a single
candidate → sane traversal up then down for a window exposing
window-manager state, falling back to the sole candidate's id; two or more
candidates → filter by title match and disambiguate (unique match, or the
head of the descending id sort). -/
def guess_window (sane : Bool) (parents children : List Nat)
    (titleMatch : String → Bool) (windows : List CandidateWindow) : Option Nat :=
  match windows with
  | [] => none
  | [w] =>
    let ms : List Nat :=
      if sane then (if parents.isEmpty then children.take 1 else parents.take 1)
      else []
    match ms with
    | [] => some w.id
    | m :: _ => some m
  | _ :: _ :: _ =>
    match guess_window_guesses titleMatch windows with
    | [] => none
    | [g] => some g.id
    | g₁ :: g₂ :: gs =>
      match sortDescById (g₁ :: g₂ :: gs) with
      | [] => none
      | g :: _ => some g.id

theorem insertDescById_ne_nil (x : WindowMetadata) (l : List WindowMetadata) :
    insertDescById x l ≠ [] := by
  cases l with
  | nil => simp [insertDescById]
  | cons y ys =>
    rw [insertDescById]
    by_cases h : y.id ≤ x.id <;> simp [h]

theorem sortDescById_head_max (l : List WindowMetadata) (g : WindowMetadata)
    (rest : List WindowMetadata) (h : sortDescById l = g :: rest) :
    g ∈ l ∧ ∀ x ∈ l, x.id ≤ g.id := by
  induction l generalizing g rest with
  | nil => exact absurd h (by simp [sortDescById])
  | cons x xs ih =>
    rw [sortDescById] at h
    rcases hs : sortDescById xs with _ | ⟨g', r'⟩
    · rw [hs, insertDescById] at h
      injection h with h₁ h₂
      subst h₁
      have hxs : xs = [] := by
        rcases xs with _ | ⟨a, as⟩
        · rfl
        · exfalso
          rw [sortDescById] at hs
          exact insertDescById_ne_nil a (sortDescById as) hs
      subst hxs
      exact ⟨List.mem_singleton.mpr rfl, by simp⟩
    · rw [hs, insertDescById] at h
      obtain ⟨hg', hmax⟩ := ih g' r' hs
      by_cases hle : g'.id ≤ x.id
      · rw [if_pos hle] at h
        injection h with h₁ h₂
        subst h₁
        refine ⟨List.mem_cons_self _ _, ?_⟩
        intro y hy
        rcases List.mem_cons.mp hy with rfl | hy
        · exact le_refl _
        · exact le_trans (hmax y hy) hle
      · rw [if_neg hle] at h
        injection h with h₁ h₂
        subst h₁
        refine ⟨List.mem_cons_of_mem _ hg', ?_⟩
        intro y hy
        rcases List.mem_cons.mp hy with rfl | hy
        · exact le_of_lt (lt_of_not_le hle)
        · exact hmax y hy

/-- C1: with two or more candidates, `guess_window` keeps exactly the
candidates whose displayed name is readable and matches the hint
(first conjunct); zero matches yield `None`, a unique match yields that
candidate's id, and several matches yield the id of a matching candidate
whose native id is maximal among all matches. -/
theorem guess_window_multi (sane : Bool) (parents children : List Nat)
    (titleMatch : String → Bool) (windows : List CandidateWindow)
    (h : 2 ≤ windows.length) :
    (∀ g, g ∈ guess_window_guesses titleMatch windows ↔
      ∃ w ∈ windows, w.name = some g.name ∧ titleMatch g.name = true ∧ g.id = w.id) ∧
    (guess_window_guesses titleMatch windows = [] →
      guess_window sane parents children titleMatch windows = none) ∧
    (∀ g, guess_window_guesses titleMatch windows = [g] →
      guess_window sane parents children titleMatch windows = some g.id) ∧
    (2 ≤ (guess_window_guesses titleMatch windows).length →
      ∃ g ∈ guess_window_guesses titleMatch windows,
        guess_window sane parents children titleMatch windows = some g.id ∧
        ∀ g' ∈ guess_window_guesses titleMatch windows, g'.id ≤ g.id) := by
  rcases windows with _ | ⟨w₁, _ | ⟨w₂, ws⟩⟩
  · exact absurd h (by simp)
  · exact absurd h (by simp)
  refine ⟨?_, ?_, ?_, ?_⟩
  · intro g
    rw [guess_window_guesses]
    rw [List.mem_filterMap]
    constructor
    · rintro ⟨w, hw, hf⟩
      rcases hn : w.name with _ | n
      · rw [hn] at hf
        exact absurd hf (by simp)
      · rw [hn] at hf
        dsimp only at hf
        rcases hm : titleMatch n with _ | _
        · rw [hm] at hf
          exact absurd hf (by simp)
        · rw [hm] at hf
          rw [if_pos rfl] at hf
          injection hf with hf
          subst hf
          exact ⟨w, hw, hn, hm, rfl⟩
    · rintro ⟨w, hw, hn, hm, hid⟩
      refine ⟨w, hw, ?_⟩
      rw [hn]
      dsimp only
      rw [hm]
      rw [if_pos rfl, ← hid]
  · intro hnil
    rw [guess_window, hnil]
  · intro g hone
    rw [guess_window, hone]
  · intro hlen
    rcases hg : guess_window_guesses titleMatch (w₁ :: w₂ :: ws) with _ | ⟨g₁, _ | ⟨g₂, gs⟩⟩
    · rw [hg] at hlen
      exact absurd hlen (by simp)
    · rw [hg] at hlen
      exact absurd hlen (by simp)
    · rcases hs : sortDescById (g₁ :: g₂ :: gs) with _ | ⟨gm, grest⟩
      · exact absurd hs (by
          rw [sortDescById]
          exact insertDescById_ne_nil _ _)
      · obtain ⟨hmem, hmax⟩ := sortDescById_head_max _ _ _ hs
        refine ⟨gm, hmem, ?_, hmax⟩
        rw [guess_window, hg]
        dsimp only
        rw [hs]

/-- Witness for C1: candidates with ids 5 and 9 (and an unreadable third
candidate) whose names both match the hint resolve to id 9, the larger;
with a hint matching nothing the result is `None`; with a hint matching
only one name the result is that candidate. -/
theorem guess_window_multi_witness :
    guess_window true [] [] (fun s => s == "xclock")
      [⟨5, some "xclock"⟩, ⟨9, some "xclock"⟩, ⟨11, none⟩] = some 9 ∧
    guess_window true [] [] (fun _ => false)
      [⟨5, some "xclock"⟩, ⟨9, some "xclock"⟩] = none ∧
    guess_window true [] [] (fun s => s == "a")
      [⟨5, some "a"⟩, ⟨9, some "b"⟩] = some 5 := by
  have h₁ := guess_window_multi true [] [] (fun s => s == "xclock")
    [⟨5, some "xclock"⟩, ⟨9, some "xclock"⟩, ⟨11, none⟩] (by decide)
  have h₂ := guess_window_multi true [] [] (fun _ => false)
    [⟨5, some "xclock"⟩, ⟨9, some "xclock"⟩] (by decide)
  have h₃ := guess_window_multi true [] [] (fun s => s == "a")
    [⟨5, some "a"⟩, ⟨9, some "b"⟩] (by decide)
  refine ⟨?_, ?_, ?_⟩
  · obtain ⟨g, hg, hres, hmax⟩ := h₁.2.2.2 (by rfl)
    have h9 : g.id = 9 := by
      have h5 : (WindowMetadata.mk 9 "xclock") ∈ guess_window_guesses
          (fun s => s == "xclock") [⟨5, some "xclock"⟩, ⟨9, some "xclock"⟩, ⟨11, none⟩] := by
        rw [guess_window_guesses]
        exact List.mem_cons_of_mem _ (List.mem_cons_self _ _)
      have hle : 9 ≤ g.id := hmax _ h5
      have : g ∈ [WindowMetadata.mk 5 "xclock", WindowMetadata.mk 9 "xclock"] := hg
      rcases List.mem_cons.mp this with rfl | hrest
      · exact absurd hle (by decide)
      · rcases List.mem_cons.mp hrest with rfl | habs
        · rfl
        · exact absurd habs (List.not_mem_nil g)
    rw [hres, h9]
  · exact h₂.2.1 rfl
  · exact h₃.2.2.1 (WindowMetadata.mk 5 "a") rfl

/-- C10: with exactly one candidate, `guess_window` never consults the
title hint (the result is the same under every matcher), always returns a
window id, and that id is the nearest state-exposing ancestor if sane
traversal finds one, else the nearest state-exposing descendant, else the
sole candidate's own id. -/
theorem guess_window_single (sane : Bool) (parents children : List Nat)
    (m₁ m₂ : String → Bool) (w : CandidateWindow) :
    guess_window sane parents children m₁ [w] =
      guess_window sane parents children m₂ [w] ∧
    (guess_window sane parents children m₁ [w]).isSome = true ∧
    guess_window sane parents children m₁ [w] =
      some (if sane then (parents ++ children).headD w.id else w.id) := by
  have hval : ∀ m : String → Bool, guess_window sane parents children m [w] =
      some (if sane then (parents ++ children).headD w.id else w.id) := by
    intro m
    rw [guess_window]
    rcases sane with _ | _
    · simp
    · rcases parents with _ | ⟨p, ps⟩
      · rcases children with _ | ⟨c, cs⟩
        · simp
        · simp [List.take]
      · simp [List.take]
  refine ⟨?_, ?_, hval m₁⟩
  · rw [hval m₁, hval m₂]
  · rw [hval m₁]
    rfl

/-! ## `XSessionp.launch_command` (lines 191-225)

`launch_command` snapshots `windows_before = self.search()`, spawns the
command through the detaching double-fork helper, and then loops up to
`tries` times: each attempt synchronizes the display, re-enumerates the
window set, and computes the list difference `after − before`; a non-empty
difference is returned at once, `sleep(delay)` separates attempts, and the
loop falling through returns the (empty) last difference.  The display
enumeration is embedded as `search : Nat → List Nat`, giving the window
ids the `i`-th attempt's `self.search()` would return; process spawning
and real time are outside the model. -/

/-- Default value of the `delay` parameter of `launch_command` (seconds
between attempts). -/
def launch_command_default_delay : Nat := 1

/-- Default value of the `tries` parameter of `launch_command`. -/
def launch_command_default_tries : Nat := 3

/-- The list difference `[x for x in windows_after if x not in
windows_before]` (line 220): order and duplicates of `after` preserved. -/
def window_delta (after before : List Nat) : List Nat :=
  after.filter (fun x => !before.contains x)

/-- The retry loop of `launch_command` (lines 216-225), with `i` the index
of the current attempt and the fuel counting the remaining attempts.
Exhausted fuel returns the initial/last value of `result`, which is empty
whenever the loop falls through. -/
def launch_command_loop (before : List Nat) (search : Nat → List Nat)
    (i : Nat) : Nat → List Nat
  | 0 => []
  | fuel + 1 =>
    let result := window_delta (search i) before
    if result.isEmpty then launch_command_loop before search (i + 1) fuel
    else result

/-- `XSessionp.launch_command`: the windows attributed to the spawned
command after at most `tries` enumeration attempts. -/
def launch_command (before : List Nat) (search : Nat → List Nat)
    (tries : Nat := launch_command_default_tries) : List Nat :=
  launch_command_loop before search 0 tries

theorem launch_command_loop_all_empty (before : List Nat) (search : Nat → List Nat)
    (i fuel : Nat) (h : ∀ j, i ≤ j → j < i + fuel → window_delta (search j) before = []) :
    launch_command_loop before search i fuel = [] := by
  induction fuel generalizing i with
  | zero => rfl
  | succ n ih =>
    rw [launch_command_loop]
    have hempty : window_delta (search i) before = [] :=
      h i (le_refl i) (by omega)
    rw [hempty]
    simp only [List.isEmpty_nil, if_pos]
    exact ih (i + 1) (fun j hj₁ hj₂ => h j (by omega) (by omega))

theorem launch_command_loop_first_nonempty (before : List Nat)
    (search : Nat → List Nat) (i fuel j : Nat) (hj₁ : i ≤ j) (hj₂ : j < i + fuel)
    (hne : window_delta (search j) before ≠ [])
    (hfirst : ∀ j', i ≤ j' → j' < j → window_delta (search j') before = []) :
    launch_command_loop before search i fuel = window_delta (search j) before := by
  induction fuel generalizing i with
  | zero => omega
  | succ n ih =>
    rw [launch_command_loop]
    by_cases hi : i = j
    · subst hi
      have : (window_delta (search i) before).isEmpty = false := by
        rcases hx : window_delta (search i) before with _ | _
        · exact absurd hx hne
        · rfl
      rw [this]
      simp
    · have hempty : window_delta (search i) before = [] :=
        hfirst i (le_refl i) (by omega)
      rw [hempty]
      simp only [List.isEmpty_nil, if_pos]
      exact ih (i + 1) (by omega) (by omega)
        (fun j' h₁ h₂ => hfirst j' (by omega) h₂)

/-- C2: `launch_command` makes at most `tries` attempts (default 3,
separated by the default 1-second delay), each computing the set of
enumerated windows minus the before-snapshot; the first attempt with a
non-empty difference ends the loop with exactly that difference, and if
every attempt's difference is empty the result is the empty list — not an
error. -/
theorem launch_command_spec (before : List Nat) (search : Nat → List Nat)
    (tries : Nat) :
    (launch_command_default_tries = 3 ∧ launch_command_default_delay = 1) ∧
    ((∀ j < tries, window_delta (search j) before = []) →
      launch_command before search tries = []) ∧
    (∀ j < tries, window_delta (search j) before ≠ [] →
      (∀ j' < j, window_delta (search j') before = []) →
      launch_command before search tries = window_delta (search j) before) := by
  refine ⟨⟨rfl, rfl⟩, ?_, ?_⟩
  · intro h
    exact launch_command_loop_all_empty before search 0 tries
      (fun j hj₁ hj₂ => h j (by omega))
  · intro j hj hne hfirst
    exact launch_command_loop_first_nonempty before search 0 tries j
      (Nat.zero_le j) (by omega) hne (fun j' h₁ h₂ => hfirst j' h₂)

/-- Witness for C2: before-snapshot `[1]`; the first attempt still sees
only window 1 (empty difference), the second sees windows 1 and 2, so the
default three-attempt loop returns `[2]`; and a search that never shows a
new window yields `[]`. -/
theorem launch_command_spec_witness :
    launch_command [1] (fun i => if i == 1 then [1, 2] else [1]) = [2] ∧
    launch_command [1] (fun _ => [1]) = [] := by
  constructor
  · have h := (launch_command_spec [1]
      (fun i => if i == 1 then [1, 2] else [1]) 3).2.2 1 (by decide) (by decide)
      (by
        intro j' hj'
        have hj0 : j' = 0 := by omega
        subst hj0
        rfl)
    exact h
  · exact (launch_command_spec [1] (fun _ => [1]) 3).2.1 (fun j hj => rfl)

/-! ## `XSessionp.window_tile` (lines 420-446)

Tiling inspects the live window manager's self-reported name
(`get_window_manager_name().lower()`) and dispatches on a substring
match: a name containing "muffin" selects the Muffin backend; any other
name raises `NotImplementedError("Unsupported window manager: ...")`.
Python's `str.lower` is embedded as ASCII case folding (window-manager
identities are ASCII). -/

/-- The registered tiling backends: Muffin is the only one. -/
inductive TilingBackend where
  | muffin
deriving DecidableEq, Repr

/-- ASCII case folding of Python's `str.lower()` on the characters of a
window-manager name. -/
def pyLower (s : String) : List Char :=
  s.toList.map (fun c => if 'A' ≤ c ∧ c ≤ 'Z' then Char.ofNat (c.toNat + 32) else c)

/-- `XSessionp.window_tile`, backend-selection logic: the Python
membership test `"muffin" in window_manager` on the lowered name, with
the explicit `NotImplementedError` on fallthrough.  (The Muffin
keybinding sequence itself lives in the separate Muffin backend and is
outside this model.) -/
def window_tile (window_manager_name : String) : Except (List Char) TilingBackend :=
  let window_manager := pyLower window_manager_name
  if "muffin".toList <:+: window_manager then Except.ok TilingBackend.muffin
  else Except.error ("Unsupported window manager: ".toList ++ window_manager)

/-- C9: tiling selects a backend by case-insensitive substring match on
the window manager's self-reported name, and fails with the explicit
"Unsupported window manager" error exactly when no registered backend's
identity substring occurs in the lowered name — there is no silent
fallback: every non-matching name produces the error, every matching name
selects Muffin. -/
theorem window_tile_spec (name : String) :
    (¬("muffin".toList <:+: pyLower name) ↔
      window_tile name =
        Except.error ("Unsupported window manager: ".toList ++ pyLower name)) ∧
    (("muffin".toList <:+: pyLower name) ↔
      window_tile name = Except.ok TilingBackend.muffin) := by
  constructor
  · constructor
    · intro h
      rw [window_tile]
      simp only [if_neg h]
    · intro h hmatch
      rw [window_tile] at h
      simp only [if_pos hmatch] at h
      exact absurd h (by simp)
  · constructor
    · intro h
      rw [window_tile]
      simp only [if_pos h]
    · intro h
      by_cases hmatch : "muffin".toList <:+: pyLower name
      · exact hmatch
      · rw [window_tile] at h
        simp only [if_neg hmatch] at h
        exact absurd h (by simp)

/-- Witness for C9 at concrete names: "Mutter (Muffin)" selects Muffin
despite the case difference; "KWin" yields the explicit unsupported
error. -/
theorem window_tile_spec_witness :
    window_tile "Mutter (Muffin)" = Except.ok TilingBackend.muffin ∧
    window_tile "KWin" =
      Except.error ("Unsupported window manager: ".toList ++ pyLower "KWin") := by
  constructor
  · exact (window_tile_spec "Mutter (Muffin)").2.mp (by decide)
  · exact (window_tile_spec "KWin").1.mp (by decide)

/-! ## `XSessionp.inherit_globals` (lines 175-184)

`inherit_globals` computes
`unflatten(flatten(config − windows) |> update(flatten(window)))` using the
flatten-dict library with its default tuple reducer/splitter and default
`keep_empty_types=()`.  `flatten` recurses into sub-dictionaries
accumulating the key path — an empty dictionary value therefore
contributes no entries and is silently dropped — and stores every
non-dictionary value as a leaf under its path; `dict.update` replaces
values of existing keys in place and
appends new keys; `unflatten` rebuilds a nested dictionary by inserting
each path with `nested_set_dict`, which raises (modelled as `none`) on a
duplicated key or when descending into a non-dictionary leaf. -/

/-- Keys of a flattened view. -/
abbrev FlatMap := List (List PyKey × PyVal)

/-- Lookup in a flattened view (`flat[path]`), first occurrence. -/
def flatGet (m : FlatMap) (p : List PyKey) : Option PyVal :=
  match m with
  | [] => none
  | (q, v) :: rest => if q = p then some v else flatGet rest p

/-- Key paths of a flattened view, in order. -/
def flatKeys (m : FlatMap) : List (List PyKey) := m.map Prod.fst

/-- `flatten` of the flatten-dict library (default tuple reducer and
`keep_empty_types=()`), over the entries of a dictionary with the
accumulated key path `pre`: sub-dictionaries are recursed into — so an
empty dictionary value contributes nothing and is silently dropped — and
every non-dictionary value is a leaf stored under its path. -/
def flatten_entries (pre : List PyKey) (d : PyDict) : FlatMap :=
  match d with
  | [] => []
  | (k, v) :: rest =>
    (match v with
     | .vdict sub => flatten_entries (pre ++ [k]) sub
     | leafv => [(pre ++ [k], leafv)]) ++ flatten_entries pre rest

/-- Python `dict.update` on flattened views: values of existing keys are
replaced in place (order preserved) and new keys are appended in the
extension's order. -/
def flat_update (base ext : FlatMap) : FlatMap :=
  base.map (fun kv => (kv.1, (flatGet ext kv.1).getD kv.2)) ++
    ext.filter (fun kv => !(flatGet base kv.1).isSome)

/-- `nested_set_dict` of the flatten-dict library: walks the path,
materializing intermediate dictionaries with `setdefault(key, dict())`,
and stores the value under the final key.  A final key already present
raises ValueError ("duplicated key"), and descending into a stored
non-dictionary leaf raises AttributeError; both are embedded as `none`. -/
def nested_set_dict (d : PyDict) (keys : List PyKey) (value : PyVal) : Option PyDict :=
  match keys with
  | [] => none
  | [k] => if dictContains d k then none else some (d ++ [(k, value)])
  | k₁ :: k₂ :: rest =>
    match dictGet d k₁ with
    | none =>
      match nested_set_dict [] (k₂ :: rest) value with
      | none => none
      | some sub => some (d ++ [(k₁, .vdict sub)])
    | some (.vdict sub) =>
      match nested_set_dict sub (k₂ :: rest) value with
      | none => none
      | some sub2 => some (dictSet d k₁ (.vdict sub2))
    | some _ => none

/-- `unflatten` of the flatten-dict library (default tuple splitter):
inserts every path of the flattened view in order. -/
def unflatten (m : FlatMap) : Option PyDict :=
  m.foldlM (fun d kv => nested_set_dict d kv.1 kv.2) []

/-- `XSessionp.inherit_globals`: the document-level keys other than
`windows` are flattened, updated with the flattened entry, and
unflattened; `none` embeds the exceptions the flatten-dict library raises
on structurally conflicting paths. -/
def inherit_globals (config : PyDict) (window : PyDict) : Option PyDict :=
  let base := flatten_entries []
    (config.filter (fun kv => decide (kv.1 ≠ PyKey.str "windows")))
  unflatten (flat_update base (flatten_entries [] window))

/-- Lookup of a leaf path in a nested dictionary: the value reachable by
indexing through the path's keys. -/
def getPath (d : PyDict) (p : List PyKey) : Option PyVal :=
  match p with
  | [] => none
  | [k] => dictGet d k
  | k₁ :: k₂ :: rest =>
    match dictGet d k₁ with
    | some (.vdict sub) => getPath sub (k₂ :: rest)
    | _ => none

/-- A value the `unflatten` insertion treats as an opaque leaf: anything
but a non-empty dictionary.  `flatten` (which drops empty dictionaries)
only ever stores non-dictionary values, so everything it stores is a
leaf in this sense. -/
def isLeafVal (v : PyVal) : Bool :=
  match v with
  | .vdict (_ :: _) => false
  | _ => true

/-- Pairwise structural independence of key paths: no path is an initial
segment of another (nor equal to it).  Configurations violating this make
the flatten-dict library raise during `unflatten`. -/
abbrev PathsIndep (ps : List (List PyKey)) : Prop :=
  List.Pairwise (fun p q => ¬p <+: q ∧ ¬q <+: p) ps

/-! ### Association-list lemmas -/

theorem dictGet_append_of_some (d d₂ : PyDict) (k : PyKey) (v : PyVal)
    (h : dictGet d k = some v) : dictGet (d ++ d₂) k = some v := by
  induction d with
  | nil => exact absurd h (by simp [dictGet])
  | cons kv rest ih =>
    obtain ⟨k', v'⟩ := kv
    rw [dictGet] at h
    rw [List.cons_append, dictGet]
    by_cases hk : k' = k
    · rwa [if_pos hk] at h ⊢
    · rw [if_neg hk] at h ⊢
      exact ih h

theorem dictGet_append_of_none (d d₂ : PyDict) (k : PyKey)
    (h : dictGet d k = none) : dictGet (d ++ d₂) k = dictGet d₂ k := by
  induction d with
  | nil => rfl
  | cons kv rest ih =>
    obtain ⟨k', v'⟩ := kv
    rw [dictGet] at h
    rw [List.cons_append, dictGet]
    by_cases hk : k' = k
    · rw [if_pos hk] at h
      exact absurd h (by simp)
    · rw [if_neg hk] at h ⊢
      exact ih h

theorem dictGet_dictSet_ne (d : PyDict) (k k' : PyKey) (v : PyVal)
    (h : k' ≠ k) : dictGet (dictSet d k v) k' = dictGet d k' := by
  induction d with
  | nil =>
    show dictGet [(k, v)] k' = none
    rw [dictGet, if_neg (fun he => h he.symm)]
    rfl
  | cons kv rest ih =>
    obtain ⟨k₀, v₀⟩ := kv
    rw [dictSet]
    by_cases hk : k₀ = k
    · subst hk
      rw [if_pos rfl, dictGet, dictGet]
      rw [if_neg (fun he => h he.symm), if_neg (fun he => h he.symm)]
    · rw [if_neg hk, dictGet, dictGet]
      by_cases hk' : k₀ = k'
      · rw [if_pos hk', if_pos hk']
      · rw [if_neg hk', if_neg hk']
        exact ih

theorem flatGet_isSome_iff_mem_keys (m : FlatMap) (p : List PyKey) :
    (flatGet m p).isSome = true ↔ p ∈ flatKeys m := by
  induction m with
  | nil => simp [flatGet, flatKeys]
  | cons kv rest ih =>
    obtain ⟨q, v⟩ := kv
    by_cases hq : q = p
    · subst hq
      simp [flatGet, flatKeys]
    · rw [flatGet, if_neg hq]
      rw [flatKeys, List.map_cons, List.mem_cons]
      rw [flatKeys] at ih
      simp only [ih]
      constructor
      · exact Or.inr
      · rintro (h | h)
        · exact absurd h.symm hq
        · exact h

theorem flatGet_append (m₁ m₂ : FlatMap) (p : List PyKey) :
    flatGet (m₁ ++ m₂) p =
      match flatGet m₁ p with
      | some v => some v
      | none => flatGet m₂ p := by
  induction m₁ with
  | nil => rfl
  | cons kv rest ih =>
    obtain ⟨q, v⟩ := kv
    by_cases hq : q = p
    · subst hq
      simp [flatGet]
    · simp only [List.cons_append, flatGet, if_neg hq]
      exact ih

theorem flatGet_mem (m : FlatMap) (p : List PyKey) (v : PyVal)
    (h : flatGet m p = some v) : (p, v) ∈ m := by
  induction m with
  | nil => exact absurd h (by simp [flatGet])
  | cons kv rest ih =>
    obtain ⟨q, v'⟩ := kv
    rw [flatGet] at h
    by_cases hq : q = p
    · rw [if_pos hq] at h
      injection h with h
      subst hq
      subst h
      exact List.mem_cons_self _ _
    · rw [if_neg hq] at h
      exact List.mem_cons_of_mem _ (ih h)

theorem flatGet_map_value (b : FlatMap) (g : List PyKey → PyVal → PyVal)
    (p : List PyKey) :
    flatGet (b.map (fun kv => (kv.1, g kv.1 kv.2))) p =
      (flatGet b p).map (g p) := by
  induction b with
  | nil => rfl
  | cons kv rest ih =>
    obtain ⟨q, v⟩ := kv
    rw [List.map_cons, flatGet, flatGet]
    by_cases hq : q = p
    · subst hq
      rw [if_pos rfl, if_pos rfl, Option.map_some']
    · rw [if_neg hq, if_neg hq]
      exact ih

theorem flatGet_filter_of_keep (pr : List PyKey × PyVal → Bool) (m : FlatMap)
    (p : List PyKey) (h : ∀ v, pr (p, v) = true) :
    flatGet (m.filter pr) p = flatGet m p := by
  induction m with
  | nil => rfl
  | cons kv rest ih =>
    obtain ⟨q, v⟩ := kv
    by_cases hq : q = p
    · subst hq
      simp [List.filter_cons, h v, flatGet]
    · rcases hp : pr (q, v) with _ | _
      · simp [List.filter_cons, hp, flatGet, hq, ih]
      · simp [List.filter_cons, hp, flatGet, hq, ih]

/-! ### `flat_update` lookup lemmas -/

theorem flatGet_flat_update_of_ext (b e : FlatMap) (p : List PyKey)
    (h : p ∈ flatKeys e) : flatGet (flat_update b e) p = flatGet e p := by
  rw [flat_update, flatGet_append]
  rw [flatGet_map_value b (fun k v => (flatGet e k).getD v) p]
  obtain ⟨w, hw⟩ := Option.isSome_iff_exists.mp ((flatGet_isSome_iff_mem_keys e p).mpr h)
  rcases hb : flatGet b p with _ | v
  · rw [Option.map_none']
    rw [flatGet_filter_of_keep _ e p (fun v => by rw [hb]; rfl)]
  · rw [Option.map_some']
    rw [hw, Option.getD_some]

theorem flatGet_flat_update_of_base (b e : FlatMap) (p : List PyKey)
    (hne : p ∉ flatKeys e) (v : PyVal) (hb : flatGet b p = some v) :
    flatGet (flat_update b e) p = some v := by
  rw [flat_update, flatGet_append]
  rw [flatGet_map_value b (fun k v => (flatGet e k).getD v) p]
  rw [hb, Option.map_some']
  have he : flatGet e p = none := by
    rcases hx : flatGet e p with _ | w
    · rfl
    · exact absurd ((flatGet_isSome_iff_mem_keys e p).mp (by rw [hx]; rfl)) hne
  rw [he, Option.getD_none]

/-! ### Projection of a flattened view under a first key -/

/-- The sub-view of a flattened view under first key `k`: the tails of
the paths starting with `k`, with their values, in order. -/
def flatProj (m : FlatMap) (k : PyKey) : FlatMap :=
  m.filterMap (fun kv =>
    match kv.1 with
    | [] => none
    | k' :: q => if k' = k then some (q, kv.2) else none)

theorem flatGet_flatProj (m : FlatMap) (k : PyKey) (q : List PyKey) :
    flatGet (flatProj m k) q = flatGet m (k :: q) := by
  induction m with
  | nil => rfl
  | cons kv rest ih =>
    obtain ⟨Q, v⟩ := kv
    rcases Q with _ | ⟨k', Q'⟩
    · rw [flatProj, List.filterMap_cons]
      dsimp only
      rw [← flatProj, flatGet, if_neg (by simp)]
      exact ih
    · rw [flatProj, List.filterMap_cons]
      dsimp only
      by_cases hk : k' = k
      · subst hk
        rw [if_pos rfl]
        rw [← flatProj, flatGet, flatGet]
        by_cases hq : Q' = q
        · subst hq
          rw [if_pos rfl, if_pos rfl]
        · rw [if_neg hq, if_neg (by simp [hq])]
          exact ih
      · rw [if_neg hk]
        rw [← flatProj, flatGet, if_neg (by simp [hk])]
        exact ih

theorem mem_flatKeys_flatProj (m : FlatMap) (k : PyKey) (q : List PyKey) :
    q ∈ flatKeys (flatProj m k) ↔ (k :: q) ∈ flatKeys m := by
  rw [← flatGet_isSome_iff_mem_keys, ← flatGet_isSome_iff_mem_keys,
    flatGet_flatProj]

theorem flatProj_leaf (m : FlatMap) (k : PyKey)
    (h : ∀ q v, (q, v) ∈ m → isLeafVal v = true) :
    ∀ q v, (q, v) ∈ flatProj m k → isLeafVal v = true := by
  intro q v hmem
  rw [flatProj] at hmem
  obtain ⟨⟨Q, w⟩, hQ, hf⟩ := List.mem_filterMap.mp hmem
  rcases Q with _ | ⟨k', Q'⟩
  · exact absurd hf (by simp)
  · dsimp only at hf
    by_cases hk : k' = k
    · rw [if_pos hk] at hf
      injection hf with hf
      have hv : w = v := congrArg Prod.snd hf
      subst hv
      exact h _ _ hQ
    · rw [if_neg hk] at hf
      exact absurd hf (by simp)

/-! ### `getPath` lemmas -/

theorem getPath_nil_dict (p : List PyKey) : getPath [] p = none := by
  rcases p with _ | ⟨k₁, _ | ⟨k₂, rest⟩⟩
  · rfl
  · rfl
  · rfl

theorem getPath_cons_of_ne_nil (d : PyDict) (k : PyKey) (q : List PyKey)
    (hq : q ≠ []) :
    getPath d (k :: q) =
      match dictGet d k with
      | some (.vdict sub) => getPath sub q
      | _ => none := by
  rcases q with _ | ⟨k₂, rest⟩
  · exact absurd rfl hq
  · rw [getPath]

theorem getPath_singleton (d : PyDict) (k : PyKey) :
    getPath d [k] = dictGet d k := by
  rw [getPath]

theorem getPath_append_of_some (d d₂ : PyDict) (p : List PyKey) (v : PyVal)
    (h : getPath d p = some v) : getPath (d ++ d₂) p = some v := by
  rcases p with _ | ⟨k₁, _ | ⟨k₂, rest⟩⟩
  · exact absurd h (by simp [getPath])
  · rw [getPath_singleton] at h ⊢
    exact dictGet_append_of_some d d₂ k₁ v h
  · rw [getPath] at h ⊢
    rcases hdk : dictGet d k₁ with _ | w
    · rw [hdk] at h
      exact absurd h (by simp)
    · rw [hdk] at h
      rw [dictGet_append_of_some d d₂ k₁ w hdk]
      exact h

theorem getPath_dictSet_ne (d : PyDict) (k k' : PyKey) (w : PyVal)
    (q : List PyKey) (h : k' ≠ k) :
    getPath (dictSet d k w) (k' :: q) = getPath d (k' :: q) := by
  rcases q with _ | ⟨k₂, rest⟩
  · rw [getPath_singleton, getPath_singleton]
    exact dictGet_dictSet_ne d k k' w h
  · rw [getPath, getPath]
    rw [dictGet_dictSet_ne d k k' w h]

theorem getPath_append_head_none (d d₂ : PyDict) (k : PyKey) (q : List PyKey)
    (h : dictGet d k = none) :
    getPath (d ++ d₂) (k :: q) = getPath d₂ (k :: q) := by
  rcases q with _ | ⟨k₂, rest⟩
  · rw [getPath_singleton, getPath_singleton]
    exact dictGet_append_of_none d d₂ k h
  · rw [getPath, getPath]
    rw [dictGet_append_of_none d d₂ k h]

theorem getPath_append_head_ne (d : PyDict) (k k' : PyKey) (w : PyVal)
    (q : List PyKey) (h : k' ≠ k) :
    getPath (d ++ [(k, w)]) (k' :: q) = getPath d (k' :: q) := by
  rcases hdk : dictGet d k' with _ | u
  · have h₂ : dictGet (d ++ [(k, w)]) k' = none := by
      rw [dictGet_append_of_none d _ k' hdk]
      rw [dictGet, if_neg (fun he => h he.symm)]
      rfl
    rcases q with _ | ⟨k₂, rest⟩
    · rw [getPath_singleton, getPath_singleton, h₂, hdk]
    · rw [getPath, getPath, h₂, hdk]
  · have h₂ : dictGet (d ++ [(k, w)]) k' = some u := dictGet_append_of_some d _ k' u hdk
    rcases q with _ | ⟨k₂, rest⟩
    · rw [getPath_singleton, getPath_singleton, h₂, hdk]
    · rw [getPath, getPath, h₂, hdk]

theorem getPath_cons_head_not_dict (d : PyDict) (k : PyKey) (q : List PyKey)
    (hq : q ≠ []) (w : PyVal) (hdk : dictGet d k = some w)
    (hw : ∀ entries, w ≠ PyVal.vdict entries) : getPath d (k :: q) = none := by
  rw [getPath_cons_of_ne_nil d k q hq, hdk]
  rcases w with s | n | b | _ | xs | entries
  · rfl
  · rfl
  · rfl
  · rfl
  · rfl
  · exact absurd rfl (hw entries)

theorem initseg_cons_cons (k : PyKey) (a b : List PyKey) :
    (k :: a) <+: (k :: b) ↔ a <+: b := by
  constructor
  · rintro ⟨t, ht⟩
    rw [List.cons_append] at ht
    injection ht with h₁ h₂
    exact ⟨t, h₂⟩
  · rintro ⟨t, ht⟩
    exact ⟨t, by rw [List.cons_append, ht]⟩

theorem initseg_cons_dest (k : PyKey) (a Q : List PyKey)
    (h : (k :: a) <+: Q) : ∃ Q', Q = k :: Q' ∧ a <+: Q' := by
  rcases h with ⟨t, ht⟩
  rw [List.cons_append] at ht
  exact ⟨a ++ t, ht.symm, ⟨t, rfl⟩⟩

theorem initseg_refl (p : List PyKey) : p <+: p := ⟨[], List.append_nil p⟩

/-! ### Correctness of `nested_set_dict`

The invariant carried over the insertion fold: a nested dictionary `d`
realises a flattened view `m` when (i) every binding of `m` can be read
back through `getPath`, and (ii) every non-trivial path readable in `d`
is an initial segment of some key of `m`.  Inserting a fresh,
structurally independent path preserves both. -/

theorem nested_set_dict_correct (p : List PyKey) (value : PyVal) (d : PyDict)
    (m : FlatMap)
    (hp : p ≠ [])
    (hinv₁ : ∀ q v, flatGet m q = some v → getPath d q = some v)
    (hinv₂ : ∀ q, q ≠ [] → (getPath d q).isSome = true → ∃ Q ∈ flatKeys m, q <+: Q)
    (hindep : ∀ Q ∈ flatKeys m, ¬Q <+: p ∧ ¬p <+: Q)
    (hleafm : ∀ q v, (q, v) ∈ m → isLeafVal v = true)
    (hleaf : isLeafVal value = true) :
    ∃ d', nested_set_dict d p value = some d' ∧
      (∀ q v, flatGet (m ++ [(p, value)]) q = some v → getPath d' q = some v) ∧
      (∀ q, q ≠ [] → (getPath d' q).isSome = true →
        ∃ Q ∈ flatKeys (m ++ [(p, value)]), q <+: Q) := by
  induction p generalizing d m with
  | nil => exact absurd rfl hp
  | cons k tail ih =>
    rcases tail with _ | ⟨t₁, t₂⟩
    -- p = [k]
    · have hnotin : dictContains d k = false := by
        rcases hb : dictContains d k with _ | _
        · rfl
        · exfalso
          rw [dictContains] at hb
          have hsome : (getPath d [k]).isSome = true := by
            rw [getPath_singleton]
            exact hb
          obtain ⟨Q, hQ, hpre⟩ := hinv₂ [k] (by simp) hsome
          exact (hindep Q hQ).2 hpre
      refine ⟨d ++ [(k, value)], ?_, ?_, ?_⟩
      · rw [nested_set_dict, hnotin]
        rfl
      · intro q v hv
        rw [flatGet_append] at hv
        rcases hm : flatGet m q with _ | w
        · rw [hm] at hv
          dsimp only at hv
          rw [flatGet] at hv
          by_cases hq : [k] = q
          · rw [if_pos hq] at hv
            injection hv with hv
            subst hq
            subst hv
            rw [getPath_singleton]
            rw [dictGet_append_of_none d _ k (by
              rw [dictContains] at hnotin
              rcases hx : dictGet d k with _ | u
              · rfl
              · rw [hx] at hnotin
                exact absurd hnotin (by simp))]
            rw [dictGet, if_pos rfl]
          · rw [if_neg hq] at hv
            exact absurd hv (by simp [flatGet])
        · rw [hm] at hv
          dsimp only at hv
          injection hv with hv
          subst hv
          exact getPath_append_of_some d _ q w (hinv₁ q w hm)
      · intro q hq hsome
        rcases q with _ | ⟨k₁, q'⟩
        · exact absurd rfl hq
        · by_cases hk₁ : k₁ = k
          · subst hk₁
            rcases q' with _ | ⟨k₂, q''⟩
            · exact ⟨[k₁], by simp [flatKeys], initseg_refl _⟩
            · exfalso
              have hdk : dictGet d k₁ = none := by
                rw [dictContains] at hnotin
                rcases hx : dictGet d k₁ with _ | u
                · rfl
                · rw [hx] at hnotin
                  exact absurd hnotin (by simp)
              have hdk' : dictGet (d ++ [(k₁, value)]) k₁ = some value := by
                rw [dictGet_append_of_none d _ k₁ hdk, dictGet, if_pos rfl]
              rcases value with s | n | b | _ | xs | entries
              · rw [getPath_cons_head_not_dict _ _ _ (by simp) _ hdk'
                  (fun e => by simp)] at hsome
                exact absurd hsome (by simp)
              · rw [getPath_cons_head_not_dict _ _ _ (by simp) _ hdk'
                  (fun e => by simp)] at hsome
                exact absurd hsome (by simp)
              · rw [getPath_cons_head_not_dict _ _ _ (by simp) _ hdk'
                  (fun e => by simp)] at hsome
                exact absurd hsome (by simp)
              · rw [getPath_cons_head_not_dict _ _ _ (by simp) _ hdk'
                  (fun e => by simp)] at hsome
                exact absurd hsome (by simp)
              · rw [getPath_cons_head_not_dict _ _ _ (by simp) _ hdk'
                  (fun e => by simp)] at hsome
                exact absurd hsome (by simp)
              · rcases entries with _ | ⟨e, es⟩
                · rw [getPath_cons_of_ne_nil _ _ _ (by simp), hdk'] at hsome
                  dsimp only at hsome
                  rw [getPath_nil_dict] at hsome
                  exact absurd hsome (by simp)
                · exact absurd hleaf (by simp [isLeafVal])
          · rw [getPath_append_head_ne d k k₁ value q' hk₁] at hsome
            obtain ⟨Q, hQ, hpre⟩ := hinv₂ (k₁ :: q') (by simp) hsome
            exact ⟨Q, by simp [flatKeys] at hQ ⊢; exact Or.inl hQ, hpre⟩
    -- p = k :: t₁ :: t₂
    · rcases hdk : dictGet d k with _ | w
      -- dictGet d k = none: fresh sub-tree
      · have hproj : flatProj m k = [] := by
          rcases hx : flatProj m k with _ | ⟨⟨q', v'⟩, rest⟩
          · rfl
          · exfalso
            have hq'mem : q' ∈ flatKeys (flatProj m k) := by
              rw [hx, flatKeys]
              exact List.mem_cons_self _ _
            have hmem : (k :: q') ∈ flatKeys m := (mem_flatKeys_flatProj m k q').mp hq'mem
            obtain ⟨u, hu⟩ := Option.isSome_iff_exists.mp
              ((flatGet_isSome_iff_mem_keys m (k :: q')).mpr hmem)
            have hgp : getPath d (k :: q') = some u := hinv₁ _ _ hu
            rcases q' with _ | ⟨a, q''⟩
            · rw [getPath_singleton, hdk] at hgp
              exact absurd hgp (by simp)
            · rw [getPath_cons_of_ne_nil _ _ _ (by simp), hdk] at hgp
              exact absurd hgp (by simp)
        obtain ⟨sub, hsub_eq, hsub_a, hsub_b⟩ := ih [] []
          (by simp)
          (fun q v h => absurd h (by simp [flatGet]))
          (fun q hq hsome => by
            rw [getPath_nil_dict] at hsome
            exact absurd hsome (by simp))
          (fun Q hQ => absurd hQ (by simp [flatKeys]))
          (fun q v h => absurd h (by simp))
        refine ⟨d ++ [(k, .vdict sub)], ?_, ?_, ?_⟩
        · rw [nested_set_dict, hdk]
          dsimp only
          rw [hsub_eq]
        · intro q v hv
          rw [flatGet_append] at hv
          rcases hm : flatGet m q with _ | u
          · rw [hm] at hv
            dsimp only at hv
            rw [flatGet] at hv
            by_cases hq : k :: t₁ :: t₂ = q
            · rw [if_pos hq] at hv
              injection hv with hv
              subst hq
              subst hv
              rw [getPath_cons_of_ne_nil _ _ _ (by simp)]
              rw [dictGet_append_of_none d _ k hdk, dictGet, if_pos rfl]
              exact hsub_a (t₁ :: t₂) value (by simp [flatGet])
            · rw [if_neg hq] at hv
              exact absurd hv (by simp [flatGet])
          · rw [hm] at hv
            dsimp only at hv
            injection hv with hv
            subst hv
            exact getPath_append_of_some d _ q u (hinv₁ q u hm)
        · intro q hq hsome
          rcases q with _ | ⟨k₁, q'⟩
          · exact absurd rfl hq
          · by_cases hk₁ : k₁ = k
            · subst hk₁
              rcases q' with _ | ⟨k₂, q''⟩
              · exact ⟨k₁ :: t₁ :: t₂, by simp [flatKeys], ⟨t₁ :: t₂, rfl⟩⟩
              · have hdk' : dictGet (d ++ [(k₁, PyVal.vdict sub)]) k₁ =
                    some (PyVal.vdict sub) := by
                  rw [dictGet_append_of_none d _ k₁ hdk, dictGet, if_pos rfl]
                rw [getPath_cons_of_ne_nil _ _ _ (by simp), hdk'] at hsome
                dsimp only at hsome
                obtain ⟨Q', hQ', hpre⟩ := hsub_b (k₂ :: q'') (by simp) hsome
                simp only [List.nil_append, flatKeys, List.map_cons, List.map_nil,
                  List.mem_singleton] at hQ'
                subst hQ'
                refine ⟨k₁ :: t₁ :: t₂, by simp [flatKeys], ?_⟩
                exact (initseg_cons_cons k₁ _ _).mpr hpre
            · rw [getPath_append_head_ne d k k₁ (PyVal.vdict sub) q' hk₁] at hsome
              obtain ⟨Q, hQ, hpre⟩ := hinv₂ (k₁ :: q') (by simp) hsome
              exact ⟨Q, by simp [flatKeys] at hQ ⊢; exact Or.inl hQ, hpre⟩
      -- dictGet d k = some w
      · rcases w with s | n | b | _ | xs | entries
        case vdict =>
          -- descending into an existing sub-dictionary
          have hpm : (k :: t₁ :: t₂) ∉ flatKeys m :=
            fun hmem => (hindep _ hmem).2 (initseg_refl _)
          have hknotin : [k] ∉ flatKeys m := by
            intro hmem
            exact (hindep [k] hmem).1 ⟨t₁ :: t₂, rfl⟩
          obtain ⟨sub2, hsub2_eq, hsub2_a, hsub2_b⟩ := ih entries
            (flatProj m k)
            (by simp)
            (fun q v h => by
              rw [flatGet_flatProj] at h
              rcases q with _ | ⟨a, q''⟩
              · exfalso
                have : [k] ∈ flatKeys m :=
                  (flatGet_isSome_iff_mem_keys m [k]).mp (by rw [h]; rfl)
                exact hknotin this
              · have hgp := hinv₁ _ _ h
                rw [getPath_cons_of_ne_nil _ _ _ (by simp), hdk] at hgp
                exact hgp)
            (fun q hq hsome => by
              have hgp : (getPath d (k :: q)).isSome = true := by
                rw [getPath_cons_of_ne_nil _ _ _ hq, hdk]
                exact hsome
              obtain ⟨Q, hQ, hpre⟩ := hinv₂ (k :: q) (by simp) hgp
              obtain ⟨Q', rfl, hpre'⟩ := initseg_cons_dest k q Q hpre
              exact ⟨Q', (mem_flatKeys_flatProj m k Q').mpr hQ, hpre'⟩)
            (fun Q' hQ' => by
              have hmem : (k :: Q') ∈ flatKeys m := (mem_flatKeys_flatProj m k Q').mp hQ'
              obtain ⟨h₁, h₂⟩ := hindep (k :: Q') hmem
              exact ⟨fun hpre => h₁ ((initseg_cons_cons k _ _).mpr hpre),
                fun hpre => h₂ ((initseg_cons_cons k _ _).mpr hpre)⟩)
            (flatProj_leaf m k hleafm)
          refine ⟨dictSet d k (.vdict sub2), ?_, ?_, ?_⟩
          · rw [nested_set_dict, hdk]
            dsimp only
            rw [hsub2_eq]
          · intro q v hv
            rw [flatGet_append] at hv
            rcases hm : flatGet m q with _ | u
            · rw [hm] at hv
              dsimp only at hv
              rw [flatGet] at hv
              by_cases hq : k :: t₁ :: t₂ = q
              · rw [if_pos hq] at hv
                injection hv with hv
                subst hq
                subst hv
                rw [getPath_cons_of_ne_nil _ _ _ (by simp), dictGet_dictSet_self]
                refine hsub2_a (t₁ :: t₂) value ?_
                rw [flatGet_append]
                have hnone : flatGet (flatProj m k) (t₁ :: t₂) = none := by
                  rcases hx : flatGet (flatProj m k) (t₁ :: t₂) with _ | u'
                  · rfl
                  · exfalso
                    rw [flatGet_flatProj] at hx
                    exact hpm ((flatGet_isSome_iff_mem_keys m _).mp (by rw [hx]; rfl))
                rw [hnone]
                dsimp only
                rw [flatGet, if_pos rfl]
              · rw [if_neg hq] at hv
                exact absurd hv (by simp [flatGet])
            · rw [hm] at hv
              dsimp only at hv
              injection hv with hv
              subst hv
              rcases q with _ | ⟨k₁, q'⟩
              · exfalso
                have := hinv₁ [] u hm
                rw [getPath] at this
                exact absurd this (by simp)
              · by_cases hk₁ : k₁ = k
                · subst hk₁
                  rcases q' with _ | ⟨k₂, q''⟩
                  · exfalso
                    exact hknotin ((flatGet_isSome_iff_mem_keys m _).mp (by rw [hm]; rfl))
                  · have hgp := hinv₁ _ _ hm
                    rw [getPath_cons_of_ne_nil _ _ _ (by simp), hdk] at hgp
                    rw [getPath_cons_of_ne_nil _ _ _ (by simp), dictGet_dictSet_self]
                    refine hsub2_a (k₂ :: q'') u ?_
                    rw [flatGet_append]
                    have hx : flatGet (flatProj m k₁) (k₂ :: q'') = some u := by
                      rw [flatGet_flatProj]
                      exact hm
                    rw [hx]
                · rw [getPath_dictSet_ne d k k₁ _ q' hk₁]
                  exact hinv₁ _ _ hm
          · intro q hq hsome
            rcases q with _ | ⟨k₁, q'⟩
            · exact absurd rfl hq
            · by_cases hk₁ : k₁ = k
              · subst hk₁
                rcases q' with _ | ⟨k₂, q''⟩
                · exact ⟨k₁ :: t₁ :: t₂, by simp [flatKeys], ⟨t₁ :: t₂, rfl⟩⟩
                · rw [getPath_cons_of_ne_nil _ _ _ (by simp),
                    dictGet_dictSet_self] at hsome
                  obtain ⟨Q', hQ', hpre⟩ := hsub2_b (k₂ :: q'') (by simp) hsome
                  simp only [flatKeys, List.map_append, List.map_cons, List.map_nil,
                    List.mem_append, List.mem_singleton] at hQ'
                  rcases hQ' with hQ' | rfl
                  · refine ⟨k₁ :: Q', ?_, (initseg_cons_cons k₁ _ _).mpr hpre⟩
                    have hmm : (k₁ :: Q') ∈ flatKeys m :=
                      (mem_flatKeys_flatProj m k₁ Q').mp hQ'
                    simp only [flatKeys, List.map_append, List.mem_append]
                    exact Or.inl hmm
                  · refine ⟨k₁ :: t₁ :: t₂, by simp [flatKeys], ?_⟩
                    exact (initseg_cons_cons k₁ _ _).mpr hpre
              · rw [getPath_dictSet_ne d k k₁ _ q' hk₁] at hsome
                obtain ⟨Q, hQ, hpre⟩ := hinv₂ (k₁ :: q') (by simp) hsome
                exact ⟨Q, by simp [flatKeys] at hQ ⊢; exact Or.inl hQ, hpre⟩
        all_goals
          exfalso
          obtain ⟨Q, hQ, hpre⟩ := hinv₂ [k] (by simp) (by
            rw [getPath_singleton, hdk]
            rfl)
          obtain ⟨Q', rfl, hpre'⟩ := initseg_cons_dest k [] Q hpre
          rcases Q' with _ | ⟨a, Q''⟩
          · exact (hindep [k] hQ).1 ⟨t₁ :: t₂, rfl⟩
          · obtain ⟨u, hu⟩ := Option.isSome_iff_exists.mp
              ((flatGet_isSome_iff_mem_keys m _).mpr hQ)
            have hgp := hinv₁ _ _ hu
            rw [getPath_cons_of_ne_nil _ _ _ (by simp), hdk] at hgp
            exact absurd hgp (by simp)

theorem unflatten_fold_correct (todo : FlatMap) (d : PyDict) (m : FlatMap)
    (hinv₁ : ∀ q v, flatGet m q = some v → getPath d q = some v)
    (hinv₂ : ∀ q, q ≠ [] → (getPath d q).isSome = true → ∃ Q ∈ flatKeys m, q <+: Q)
    (hindep : PathsIndep (flatKeys (m ++ todo)))
    (hne : ∀ p ∈ flatKeys todo, p ≠ [])
    (hleaf : ∀ q v, (q, v) ∈ m ++ todo → isLeafVal v = true) :
    ∃ d', todo.foldlM (fun d kv => nested_set_dict d kv.1 kv.2) d = some d' ∧
      ∀ q v, flatGet (m ++ todo) q = some v → getPath d' q = some v := by
  induction todo generalizing d m with
  | nil =>
    refine ⟨d, rfl, ?_⟩
    intro q v h
    rw [List.append_nil] at h
    exact hinv₁ q v h
  | cons kv rest ih =>
    obtain ⟨p, value⟩ := kv
    have hkeys : flatKeys (m ++ (p, value) :: rest) =
        flatKeys m ++ p :: flatKeys rest := by
      simp [flatKeys]
    have hindep' := hindep
    rw [hkeys] at hindep'
    rw [PathsIndep, List.pairwise_append] at hindep'
    obtain ⟨hpm, hprest, hcross⟩ := hindep'
    have hindep_p : ∀ Q ∈ flatKeys m, ¬Q <+: p ∧ ¬p <+: Q :=
      fun Q hQ => hcross Q hQ p (List.mem_cons_self _ _)
    obtain ⟨d₁, hd₁, ha, hb⟩ := nested_set_dict_correct p value d m
      (hne p (by simp [flatKeys]))
      hinv₁ hinv₂ hindep_p
      (fun q v h => hleaf q v (List.mem_append_left _ h))
      (hleaf p value (by simp))
    have hassoc : (m ++ [(p, value)]) ++ rest = m ++ (p, value) :: rest := by
      rw [List.append_assoc]
      rfl
    obtain ⟨d₂, hd₂, hfin⟩ := ih d₁ (m ++ [(p, value)]) ha hb
      (by rw [hassoc]; exact hindep)
      (fun q hq => hne q (by simp [flatKeys] at hq ⊢; exact Or.inr hq))
      (fun q v h => hleaf q v (by rw [← hassoc]; exact h))
    refine ⟨d₂, ?_, ?_⟩
    · rw [List.foldlM_cons, hd₁]
      exact hd₂
    · intro q v h
      exact hfin q v (by rw [hassoc]; exact h)

theorem unflatten_correct (m : FlatMap)
    (hne : ∀ p ∈ flatKeys m, p ≠ [])
    (hindep : PathsIndep (flatKeys m))
    (hleaf : ∀ q v, (q, v) ∈ m → isLeafVal v = true) :
    ∃ d, unflatten m = some d ∧
      ∀ q v, flatGet m q = some v → getPath d q = some v := by
  obtain ⟨d, h₁, h₂⟩ := unflatten_fold_correct m [] []
    (fun q v h => absurd h (by simp [flatGet]))
    (fun q hq hsome => by
      rw [getPath_nil_dict] at hsome
      exact absurd hsome (by simp))
    (by simpa using hindep)
    hne
    (by simpa using hleaf)
  exact ⟨d, h₁, by simpa using h₂⟩

/-! ### Facts about the output of `flatten` -/

theorem flatten_entries_keys_ne_nil (pre : List PyKey) (d : PyDict) :
    ∀ p ∈ flatKeys (flatten_entries pre d), p ≠ [] := by
  induction pre, d using flatten_entries.induct with
  | case1 pre => simp [flatten_entries, flatKeys]
  | case2 pre k v rest ih1 ih2 =>
    intro p hp
    cases v with
    | vdict entries =>
      cases entries with
      | nil =>
        simp only [flatten_entries, flatKeys, List.map_append, List.mem_append,
          List.map_cons, List.map_nil, List.mem_singleton] at hp
        rcases hp with hp | hp
        · exact absurd hp (by simp)
        · exact ih2 p hp
      | cons e es =>
        simp only [flatten_entries, flatKeys, List.map_append, List.mem_append] at hp
        rcases hp with hp | hp
        · exact ih1 p hp
        · exact ih2 p hp
    | vstr s =>
      simp only [flatten_entries, flatKeys, List.map_append, List.mem_append,
        List.map_cons, List.map_nil, List.mem_singleton] at hp
      rcases hp with hp | hp
      · subst hp; simp
      · exact ih2 p hp
    | vint n =>
      simp only [flatten_entries, flatKeys, List.map_append, List.mem_append,
        List.map_cons, List.map_nil, List.mem_singleton] at hp
      rcases hp with hp | hp
      · subst hp; simp
      · exact ih2 p hp
    | vbool b =>
      simp only [flatten_entries, flatKeys, List.map_append, List.mem_append,
        List.map_cons, List.map_nil, List.mem_singleton] at hp
      rcases hp with hp | hp
      · subst hp; simp
      · exact ih2 p hp
    | vnull =>
      simp only [flatten_entries, flatKeys, List.map_append, List.mem_append,
        List.map_cons, List.map_nil, List.mem_singleton] at hp
      rcases hp with hp | hp
      · subst hp; simp
      · exact ih2 p hp
    | vlist xs =>
      simp only [flatten_entries, flatKeys, List.map_append, List.mem_append,
        List.map_cons, List.map_nil, List.mem_singleton] at hp
      rcases hp with hp | hp
      · subst hp; simp
      · exact ih2 p hp

theorem flatten_entries_leaf (pre : List PyKey) (d : PyDict) :
    ∀ q v, (q, v) ∈ flatten_entries pre d → isLeafVal v = true := by
  induction pre, d using flatten_entries.induct with
  | case1 pre => simp [flatten_entries]
  | case2 pre k v rest ih1 ih2 =>
    intro q w hw
    cases v with
    | vdict entries =>
      cases entries with
      | nil =>
        simp only [flatten_entries, List.mem_append, List.mem_singleton] at hw
        rcases hw with hw | hw
        · exact absurd hw (by simp)
        · exact ih2 q w hw
      | cons e es =>
        simp only [flatten_entries, List.mem_append] at hw
        rcases hw with hw | hw
        · exact ih1 q w hw
        · exact ih2 q w hw
    | vstr s =>
      simp only [flatten_entries, List.mem_append, List.mem_singleton] at hw
      rcases hw with hw | hw
      · injection hw with h₁ h₂
        subst h₂
        rfl
      · exact ih2 q w hw
    | vint n =>
      simp only [flatten_entries, List.mem_append, List.mem_singleton] at hw
      rcases hw with hw | hw
      · injection hw with h₁ h₂
        subst h₂
        rfl
      · exact ih2 q w hw
    | vbool b =>
      simp only [flatten_entries, List.mem_append, List.mem_singleton] at hw
      rcases hw with hw | hw
      · injection hw with h₁ h₂
        subst h₂
        rfl
      · exact ih2 q w hw
    | vnull =>
      simp only [flatten_entries, List.mem_append, List.mem_singleton] at hw
      rcases hw with hw | hw
      · injection hw with h₁ h₂
        subst h₂
        rfl
      · exact ih2 q w hw
    | vlist xs =>
      simp only [flatten_entries, List.mem_append, List.mem_singleton] at hw
      rcases hw with hw | hw
      · injection hw with h₁ h₂
        subst h₂
        rfl
      · exact ih2 q w hw

theorem flat_update_mem (b e : FlatMap) (q : List PyKey) (v : PyVal)
    (h : (q, v) ∈ flat_update b e) :
    (∃ v₀, (q, v₀) ∈ b ∧ (v = v₀ ∨ flatGet e q = some v)) ∨ (q, v) ∈ e := by
  rw [flat_update] at h
  rcases List.mem_append.mp h with h | h
  · obtain ⟨⟨q₀, v₀⟩, hmem, heq⟩ := List.mem_map.mp h
    left
    have hq : q₀ = q := congrArg Prod.fst heq
    subst hq
    refine ⟨v₀, hmem, ?_⟩
    have hv : (flatGet e q₀).getD v₀ = v := congrArg Prod.snd heq
    rcases hx : flatGet e q₀ with _ | w
    · rw [hx, Option.getD_none] at hv
      exact Or.inl hv.symm
    · rw [hx, Option.getD_some] at hv
      subst hv
      exact Or.inr rfl
  · exact Or.inr (List.mem_of_mem_filter h)

theorem flat_update_leaf (b e : FlatMap)
    (hb : ∀ q v, (q, v) ∈ b → isLeafVal v = true)
    (he : ∀ q v, (q, v) ∈ e → isLeafVal v = true) :
    ∀ q v, (q, v) ∈ flat_update b e → isLeafVal v = true := by
  intro q v h
  rcases flat_update_mem b e q v h with ⟨v₀, hmem, hv⟩ | hmem
  · rcases hv with rfl | hget
    · exact hb _ _ hmem
    · obtain hx := flatGet_mem e q v hget
      exact he q v hx
  · exact he q v hmem

theorem flat_update_keys_ne_nil (b e : FlatMap)
    (hb : ∀ p ∈ flatKeys b, p ≠ []) (he : ∀ p ∈ flatKeys e, p ≠ []) :
    ∀ p ∈ flatKeys (flat_update b e), p ≠ [] := by
  intro p hp
  obtain ⟨v, hv⟩ := Option.isSome_iff_exists.mp
    ((flatGet_isSome_iff_mem_keys _ p).mpr hp)
  rcases flat_update_mem b e p v (flatGet_mem _ p v hv) with ⟨v₀, hmem, -⟩ | hmem
  · exact hb p (by
      rw [flatKeys]
      exact List.mem_map.mpr ⟨(p, v₀), hmem, rfl⟩)
  · exact he p (by
      rw [flatKeys]
      exact List.mem_map.mpr ⟨(p, v), hmem, rfl⟩)

/-- C4: whenever the flattened global scope (document keys except
`windows`) merged with the flattened entry scope has structurally
independent leaf paths (the configurations on which the flatten-dict
library does not raise), `inherit_globals` succeeds, and in the merged
result every leaf path present at entry scope reads back the entry-scope
value while every leaf path present only at global scope reads back the
global value. -/
theorem inherit_globals_correct (config window : PyDict)
    (hindep : PathsIndep (flatKeys (flat_update
      (flatten_entries []
        (config.filter (fun kv => decide (kv.1 ≠ PyKey.str "windows"))))
      (flatten_entries [] window)))) :
    ∃ d, inherit_globals config window = some d ∧
      (∀ p v, flatGet (flatten_entries [] window) p = some v →
        getPath d p = some v) ∧
      (∀ p v, p ∉ flatKeys (flatten_entries [] window) →
        flatGet (flatten_entries []
          (config.filter (fun kv => decide (kv.1 ≠ PyKey.str "windows")))) p =
          some v →
        getPath d p = some v) := by
  obtain ⟨d, hd, hget⟩ := unflatten_correct
    (flat_update
      (flatten_entries []
        (config.filter (fun kv => decide (kv.1 ≠ PyKey.str "windows"))))
      (flatten_entries [] window))
    (flat_update_keys_ne_nil _ _
      (flatten_entries_keys_ne_nil [] _)
      (flatten_entries_keys_ne_nil [] window))
    hindep
    (flat_update_leaf _ _
      (flatten_entries_leaf [] _)
      (flatten_entries_leaf [] window))
  refine ⟨d, hd, ?_, ?_⟩
  · intro p v h
    have hp : p ∈ flatKeys (flatten_entries [] window) :=
      (flatGet_isSome_iff_mem_keys _ p).mp (by rw [h]; rfl)
    refine hget p v ?_
    rw [flatGet_flat_update_of_ext _ _ p hp]
    exact h
  · intro p v hnot h
    exact hget p v (flatGet_flat_update_of_base _ _ p hnot v h)

/-- Witness for C4 at a concrete document: global scope
`environment: (FOO: "1", BAR: "2")`, entry scope `command: xclock,
environment: (BAR: "3")`.  The merged window reads `environment.BAR`
from the entry ("3", overriding the global "2"), `environment.FOO` from
the global scope ("1"), and `command` from the entry. -/
theorem inherit_globals_correct_witness :
    ∃ d,
      inherit_globals
        [(.str "windows", .vlist []),
         (.str "environment", .vdict
           [(.str "FOO", .vstr "1"), (.str "BAR", .vstr "2")])]
        [(.str "command", .vstr "xclock"),
         (.str "environment", .vdict [(.str "BAR", .vstr "3")])] = some d ∧
      getPath d [.str "environment", .str "BAR"] = some (.vstr "3") ∧
      getPath d [.str "environment", .str "FOO"] = some (.vstr "1") ∧
      getPath d [.str "command"] = some (.vstr "xclock") := by
  have hB : flatten_entries []
      (List.filter (fun kv => decide (kv.1 ≠ PyKey.str "windows"))
        [(PyKey.str "windows", PyVal.vlist []),
         (PyKey.str "environment", PyVal.vdict
           [(PyKey.str "FOO", PyVal.vstr "1"),
            (PyKey.str "BAR", PyVal.vstr "2")])]) =
      [([PyKey.str "environment", PyKey.str "FOO"], PyVal.vstr "1"),
       ([PyKey.str "environment", PyKey.str "BAR"], PyVal.vstr "2")] := by
    simp [flatten_entries]
  have hW : flatten_entries []
      [(PyKey.str "command", PyVal.vstr "xclock"),
       (PyKey.str "environment", PyVal.vdict [(PyKey.str "BAR", PyVal.vstr "3")])] =
      [([PyKey.str "command"], PyVal.vstr "xclock"),
       ([PyKey.str "environment", PyKey.str "BAR"], PyVal.vstr "3")] := by
    simp [flatten_entries]
  obtain ⟨d, hd, hw, hg⟩ := inherit_globals_correct
    [(.str "windows", .vlist []),
     (.str "environment", .vdict
       [(.str "FOO", .vstr "1"), (.str "BAR", .vstr "2")])]
    [(.str "command", .vstr "xclock"),
     (.str "environment", .vdict [(.str "BAR", .vstr "3")])]
    (by rw [hB, hW]; decide)
  refine ⟨d, hd, ?_, ?_, ?_⟩
  · exact hw [.str "environment", .str "BAR"] (.vstr "3") (by rw [hW]; rfl)
  · exact hg [.str "environment", .str "FOO"] (.vstr "1")
      (by rw [hW]; decide) (by rw [hB]; rfl)
  · exact hw [.str "command"] (.vstr "xclock") (by rw [hW]; rfl)

/-- The flatten-dict `flatten` drops an empty dictionary value (default
`keep_empty_types=()`), so an entry carrying an empty dictionary under a
key that holds a nested structure at global scope contributes no paths:
the merge succeeds without raising and the global leaves survive. -/
theorem inherit_globals_empty_dict_entry :
    inherit_globals
      [(.str "environment", .vdict [(.str "FOO", .vstr "1")])]
      [(.str "environment", .vdict [])] =
    some [(.str "environment", .vdict [(.str "FOO", .vstr "1")])] := by
  have hB : flatten_entries []
      (List.filter (fun kv => decide (kv.1 ≠ PyKey.str "windows"))
        [(PyKey.str "environment",
          PyVal.vdict [(PyKey.str "FOO", PyVal.vstr "1")])]) =
      [([PyKey.str "environment", PyKey.str "FOO"], PyVal.vstr "1")] := by
    simp [flatten_entries]
  have hW : flatten_entries []
      [(PyKey.str "environment", PyVal.vdict [])] = [] := by
    simp [flatten_entries]
  show unflatten (flat_update
      (flatten_entries []
        (List.filter (fun kv => decide (kv.1 ≠ PyKey.str "windows"))
          [(PyKey.str "environment",
            PyVal.vdict [(PyKey.str "FOO", PyVal.vstr "1")])]))
      (flatten_entries []
        [(PyKey.str "environment", PyVal.vdict [])])) = _
  rw [hB, hW]
  rfl

/-! ## JSON metadata round trip (C8)

`load` writes `json.dumps(obj=window, sort_keys=True)` onto the window
(line 330), and the CLI reads it back with `json.loads` (cli.py lines 116
and 270).  The encoder is embedded at the character level with CPython's
defaults: `ensure_ascii=True` (printable ASCII kept literal, everything
else `\uXXXX`-escaped, astral characters as surrogate pairs), separators
`", "` and `": "`, and `sort_keys=True` (dictionary items sorted by key).
The decoder is a character-level JSON parser.  Model restrictions: the
value domain is the YAML/JSON-representable values of `PyVal` (no
floats — configuration documents hold strings, integers, booleans, nulls,
lists and mappings), and strings are sequences of Unicode scalar values
(Python strings holding lone surrogates are not representable). -/

/-- Lowercase hex digit, as `\uXXXX` escapes are printed by CPython. -/
def hexDigit (n : Nat) : Char :=
  if n < 10 then Char.ofNat (48 + n) else Char.ofNat (87 + n)

/-- Four-digit hex rendering of `n < 0x10000`. -/
def hex4 (n : Nat) : List Char :=
  [hexDigit (n / 4096 % 16), hexDigit (n / 256 % 16), hexDigit (n / 16 % 16),
   hexDigit (n % 16)]

/-- Numeric value of a hex digit character (both cases accepted, as by
the Python scanner). -/
def hexVal (c : Char) : Option Nat :=
  if '0' ≤ c ∧ c ≤ '9' then some (c.toNat - 48)
  else if 'a' ≤ c ∧ c ≤ 'f' then some (c.toNat - 87)
  else if 'A' ≤ c ∧ c ≤ 'F' then some (c.toNat - 55)
  else none

/-- Combined value of four hex digit characters. -/
def hex4Val (h₁ h₂ h₃ h₄ : Char) : Option Nat :=
  match hexVal h₁, hexVal h₂, hexVal h₃, hexVal h₄ with
  | some a, some b, some c, some d => some (a * 4096 + b * 256 + c * 16 + d)
  | _, _, _, _ => none

/-- CPython `ensure_ascii` encoding of one character:  `"` and `\` get
backslash escapes, the five short control escapes apply, other printable
ASCII is literal, anything else becomes `\uXXXX` (with a surrogate pair
above U+FFFF). -/
def encodeChar (c : Char) : List Char :=
  if c = '"' then ['\\', '"']
  else if c = '\\' then ['\\', '\\']
  else if c = '\x08' then ['\\', 'b']
  else if c = '\x0c' then ['\\', 'f']
  else if c = '\n' then ['\\', 'n']
  else if c = '\r' then ['\\', 'r']
  else if c = '\t' then ['\\', 't']
  else if 0x20 ≤ c.toNat ∧ c.toNat ≤ 0x7e then [c]
  else if c.toNat < 0x10000 then '\\' :: 'u' :: hex4 c.toNat
  else
    ('\\' :: 'u' :: hex4 (0xd800 + (c.toNat - 0x10000) / 0x400)) ++
      ('\\' :: 'u' :: hex4 (0xdc00 + (c.toNat - 0x10000) % 0x400))

/-- Encoded body of a string (no surrounding quotes). -/
def encBody : List Char → List Char
  | [] => []
  | c :: cs => encodeChar c ++ encBody cs

/-- JSON encoding of a string, quotes included. -/
def encodeString (s : String) : List Char :=
  '"' :: encBody s.toList ++ ['"']

/-- Decimal digits of a natural number, most significant first
(`repr(n)` for a non-negative Python int). -/
def natDigits (n : Nat) : List Char :=
  if h : n < 10 then [Char.ofNat (48 + n)]
  else natDigits (n / 10) ++ [Char.ofNat (48 + n % 10)]
decreasing_by exact Nat.div_lt_self (by omega) (by omega)

/-- `repr` of a Python int. -/
def intRepr (n : Int) : List Char :=
  if n < 0 then '-' :: natDigits n.natAbs else natDigits n.toNat

/-- JSON insignificant whitespace. -/
def isWsChar (c : Char) : Bool :=
  c = ' ' || c = '\t' || c = '\n' || c = '\r'

/-- Skip leading insignificant whitespace. -/
def skipWs : List Char → List Char
  | [] => []
  | c :: rest => if isWsChar c then skipWs rest else c :: rest

/-- String-body scanner: consumes characters up to the closing quote,
decoding backslash escapes, `\uXXXX`, and surrogate pairs; rejects
unescaped control characters (strict mode) and lone surrogates. -/
def parseStr : List Char → Option (List Char × List Char)
  | [] => none
  | '"' :: rest => some ([], rest)
  | '\\' :: 'u' :: h₁ :: h₂ :: h₃ :: h₄ :: r =>
    (match hex4Val h₁ h₂ h₃ h₄ with
     | none => none
     | some n =>
       if n < 0xd800 ∨ 0xe000 ≤ n then
         match parseStr r with
         | some (s, r') => some (Char.ofNat n :: s, r')
         | none => none
       else if n < 0xdc00 then
         match r with
         | e₂ :: u₂ :: g₁ :: g₂ :: g₃ :: g₄ :: r₂ =>
           if e₂ = '\\' ∧ u₂ = 'u' then
             (match hex4Val g₁ g₂ g₃ g₄ with
              | none => none
              | some m =>
                if 0xdc00 ≤ m ∧ m < 0xe000 then
                  match parseStr r₂ with
                  | some (s, r') =>
                    some (Char.ofNat
                      (0x10000 + (n - 0xd800) * 0x400 + (m - 0xdc00)) :: s, r')
                  | none => none
                else none)
           else none
         | _ => none
       else none)
  | '\\' :: e :: r =>
    (match
      (if e = '"' then some '"'
       else if e = '\\' then some '\\'
       else if e = '/' then some '/'
       else if e = 'b' then some '\x08'
       else if e = 'f' then some '\x0c'
       else if e = 'n' then some '\n'
       else if e = 'r' then some '\r'
       else if e = 't' then some '\t'
       else none) with
     | none => none
     | some c' =>
       match parseStr r with
       | some (s, r') => some (c' :: s, r')
       | none => none)
  | c :: rest =>
    if c.toNat < 0x20 then none
    else
      match parseStr rest with
      | some (s, r') => some (c :: s, r')
      | none => none

/-- Split a leading run of decimal digits. -/
def splitDigits : List Char → List Char × List Char
  | [] => ([], [])
  | c :: rest =>
    if '0' ≤ c ∧ c ≤ '9' then
      ((splitDigits rest).1.cons c, (splitDigits rest).2)
    else ([], c :: rest)

/-- Numeric value of a digit run. -/
def digitsToNat (ds : List Char) : Nat :=
  ds.foldl (fun acc c => acc * 10 + (c.toNat - 48)) 0

/-- Integer scanner: a JSON int (no leading zeros); a following `.`, `e`
or `E` would make a float, which the model's value domain excludes. -/
def parseNumCore (cs : List Char) (neg : Bool) : Option (PyVal × List Char) :=
  let ds := (splitDigits cs).1
  let rest := (splitDigits cs).2
  if ds.isEmpty then none
  else if 1 < ds.length ∧ ds.headD '0' = '0' then none
  else if rest.headD ' ' = '.' ∨ rest.headD ' ' = 'e' ∨ rest.headD ' ' = 'E' then
    none
  else
    some (.vint (if neg then -(digitsToNat ds : Int) else (digitsToNat ds : Int)),
      rest)

/-- Number dispatch including the leading minus sign. -/
def parseNum (cs : List Char) : Option (PyVal × List Char) :=
  match cs with
  | [] => none
  | c :: rest =>
    if c = '-' then parseNumCore rest true else parseNumCore (c :: rest) false

/-! ### Character and number round trips -/

theorem toNat_ofNat_valid (n : Nat) (h : n.isValidChar) :
    (Char.ofNat n).toNat = n := by
  rw [Char.ofNat, dif_pos h]
  rfl

theorem hexVal_hexDigit (k : Nat) (h : k < 16) :
    hexVal (hexDigit k) = some k := by
  interval_cases k <;> rfl

theorem hex4Val_hex4 (n : Nat) (h : n < 0x10000) :
    hex4Val (hexDigit (n / 4096 % 16)) (hexDigit (n / 256 % 16))
      (hexDigit (n / 16 % 16)) (hexDigit (n % 16)) = some n := by
  rw [hex4Val,
    hexVal_hexDigit (n / 4096 % 16) (Nat.mod_lt _ (by omega)),
    hexVal_hexDigit (n / 256 % 16) (Nat.mod_lt _ (by omega)),
    hexVal_hexDigit (n / 16 % 16) (Nat.mod_lt _ (by omega)),
    hexVal_hexDigit (n % 16) (Nat.mod_lt _ (by omega))]
  dsimp only
  congr 1
  omega

set_option maxHeartbeats 1000000 in
theorem parseStr_literal (c : Char) (rest : List Char) (h1 : c ≠ '"')
    (h2 : c ≠ '\\') (h3 : ¬(c.toNat < 0x20)) :
    parseStr (c :: rest) =
      match parseStr rest with
      | some (s, r') => some (c :: s, r')
      | none => none := by
  rw [parseStr.eq_def]
  split
  · rename_i heq
    exact absurd heq (by simp)
  · rename_i heq
    injection heq with hc
    exact absurd hc h1
  · rename_i heq
    injection heq with hc
    exact absurd hc h2
  · rename_i heq
    injection heq with hc
    exact absurd hc h2
  · rename_i heq
    injection heq with hc hrest
    subst hc
    subst hrest
    rw [if_neg h3]

theorem parseStr_encBody (cl : List Char) (rest : List Char) :
    parseStr (encBody cl ++ '"' :: rest) = some (cl, rest) := by
  induction cl with
  | nil => rfl
  | cons c cl ih =>
    rw [encBody, List.append_assoc]
    by_cases h1 : c = '"'
    · subst h1
      rw [show encodeChar '"' = ['\\', '"'] from rfl]
      show (match parseStr (encBody cl ++ '"' :: rest) with
            | some (s, r') => some ('"' :: s, r')
            | none => none) = some ('"' :: cl, rest)
      rw [ih]
    · by_cases h2 : c = '\\'
      · subst h2
        rw [show encodeChar '\\' = ['\\', '\\'] from rfl]
        show (match parseStr (encBody cl ++ '"' :: rest) with
              | some (s, r') => some ('\\' :: s, r')
              | none => none) = some ('\\' :: cl, rest)
        rw [ih]
      · by_cases h3 : c = '\x08'
        · subst h3
          rw [show encodeChar '\x08' = ['\\', 'b'] from rfl]
          show (match parseStr (encBody cl ++ '"' :: rest) with
                | some (s, r') => some ('\x08' :: s, r')
                | none => none) = some ('\x08' :: cl, rest)
          rw [ih]
        · by_cases h4 : c = '\x0c'
          · subst h4
            rw [show encodeChar '\x0c' = ['\\', 'f'] from rfl]
            show (match parseStr (encBody cl ++ '"' :: rest) with
                  | some (s, r') => some ('\x0c' :: s, r')
                  | none => none) = some ('\x0c' :: cl, rest)
            rw [ih]
          · by_cases h5 : c = '\n'
            · subst h5
              rw [show encodeChar '\n' = ['\\', 'n'] from rfl]
              show (match parseStr (encBody cl ++ '"' :: rest) with
                    | some (s, r') => some ('\n' :: s, r')
                    | none => none) = some ('\n' :: cl, rest)
              rw [ih]
            · by_cases h6 : c = '\r'
              · subst h6
                rw [show encodeChar '\r' = ['\\', 'r'] from rfl]
                show (match parseStr (encBody cl ++ '"' :: rest) with
                      | some (s, r') => some ('\r' :: s, r')
                      | none => none) = some ('\r' :: cl, rest)
                rw [ih]
              · by_cases h7 : c = '\t'
                · subst h7
                  rw [show encodeChar '\t' = ['\\', 't'] from rfl]
                  show (match parseStr (encBody cl ++ '"' :: rest) with
                        | some (s, r') => some ('\t' :: s, r')
                        | none => none) = some ('\t' :: cl, rest)
                  rw [ih]
                · have hva : c.toNat < 0xd800 ∨
                      (0xdfff < c.toNat ∧ c.toNat < 0x110000) := c.valid
                  by_cases h8 : 0x20 ≤ c.toNat ∧ c.toNat ≤ 0x7e
                  · rw [encodeChar, if_neg h1, if_neg h2, if_neg h3, if_neg h4,
                      if_neg h5, if_neg h6, if_neg h7, if_pos h8]
                    rw [List.singleton_append,
                      parseStr_literal c _ h1 h2 (by omega)]
                    rw [ih]
                  · by_cases h9 : c.toNat < 0x10000
                    · rw [encodeChar, if_neg h1, if_neg h2, if_neg h3, if_neg h4,
                        if_neg h5, if_neg h6, if_neg h7, if_neg h8, if_pos h9]
                      rw [show hex4 c.toNat =
                        [hexDigit (c.toNat / 4096 % 16), hexDigit (c.toNat / 256 % 16),
                         hexDigit (c.toNat / 16 % 16), hexDigit (c.toNat % 16)] from rfl]
                      simp only [List.cons_append, List.nil_append]
                      rw [parseStr]
                      rw [hex4Val_hex4 c.toNat h9]
                      dsimp only
                      rw [if_pos (by
                        rcases hva with hv | ⟨hv1, hv2⟩
                        · exact Or.inl hv
                        · exact Or.inr (by omega))]
                      rw [ih, Char.ofNat_toNat]
                    · have hv : 0xdfff < c.toNat ∧ c.toNat < 0x110000 := by
                        rcases hva with hv | hv
                        · omega
                        · exact hv
                      have hhi : 0xd800 + (c.toNat - 0x10000) / 0x400 < 0x10000 := by
                        omega
                      have hlo : 0xdc00 + (c.toNat - 0x10000) % 0x400 < 0x10000 := by
                        omega
                      rw [encodeChar, if_neg h1, if_neg h2, if_neg h3, if_neg h4,
                        if_neg h5, if_neg h6, if_neg h7, if_neg h8, if_neg h9]
                      rw [show hex4 (0xd800 + (c.toNat - 0x10000) / 0x400) =
                        [hexDigit ((0xd800 + (c.toNat - 0x10000) / 0x400) / 4096 % 16),
                         hexDigit ((0xd800 + (c.toNat - 0x10000) / 0x400) / 256 % 16),
                         hexDigit ((0xd800 + (c.toNat - 0x10000) / 0x400) / 16 % 16),
                         hexDigit ((0xd800 + (c.toNat - 0x10000) / 0x400) % 16)] from rfl]
                      rw [show hex4 (0xdc00 + (c.toNat - 0x10000) % 0x400) =
                        [hexDigit ((0xdc00 + (c.toNat - 0x10000) % 0x400) / 4096 % 16),
                         hexDigit ((0xdc00 + (c.toNat - 0x10000) % 0x400) / 256 % 16),
                         hexDigit ((0xdc00 + (c.toNat - 0x10000) % 0x400) / 16 % 16),
                         hexDigit ((0xdc00 + (c.toNat - 0x10000) % 0x400) % 16)] from rfl]
                      simp only [List.cons_append, List.nil_append, List.append_assoc]
                      rw [parseStr]
                      rw [hex4Val_hex4 _ hhi]
                      dsimp only
                      rw [if_neg (by omega), if_pos (by omega)]
                      rw [if_pos ⟨rfl, rfl⟩]
                      rw [hex4Val_hex4 _ hlo]
                      dsimp only
                      rw [if_pos (by omega)]
                      rw [ih]
                      have harith : 0x10000 +
                          ((0xd800 + (c.toNat - 0x10000) / 0x400) - 0xd800) * 0x400 +
                          ((0xdc00 + (c.toNat - 0x10000) % 0x400) - 0xdc00) = c.toNat := by
                        omega
                      rw [harith, Char.ofNat_toNat]

theorem char_le_iff_toNat (a b : Char) : a ≤ b ↔ a.toNat ≤ b.toNat :=
  Iff.rfl

theorem toNat_char_ofNat_small (n : Nat) (h : n < 0xd800) :
    (Char.ofNat n).toNat = n :=
  toNat_ofNat_valid n (Or.inl h)

theorem natDigits_ne_nil (n : Nat) : natDigits n ≠ [] := by
  rw [natDigits]
  by_cases h : n < 10
  · rw [dif_pos h]
    simp
  · rw [dif_neg h]
    simp

theorem natDigits_digits (n : Nat) : ∀ c ∈ natDigits n, '0' ≤ c ∧ c ≤ '9' := by
  induction n using Nat.strong_induction_on with
  | _ n ih =>
    intro c hc
    rw [natDigits] at hc
    by_cases h : n < 10
    · rw [dif_pos h] at hc
      rw [List.mem_singleton] at hc
      subst hc
      constructor
      · rw [char_le_iff_toNat, toNat_char_ofNat_small (48 + n) (by omega)]
        show 48 ≤ 48 + n
        omega
      · rw [char_le_iff_toNat, toNat_char_ofNat_small (48 + n) (by omega)]
        show 48 + n ≤ 57
        omega
    · rw [dif_neg h, List.mem_append] at hc
      rcases hc with hc | hc
      · exact ih (n / 10) (Nat.div_lt_self (by omega) (by omega)) c hc
      · rw [List.mem_singleton] at hc
        subst hc
        constructor
        · rw [char_le_iff_toNat,
            toNat_char_ofNat_small (48 + n % 10) (by omega)]
          show 48 ≤ 48 + n % 10
          omega
        · rw [char_le_iff_toNat,
            toNat_char_ofNat_small (48 + n % 10) (by omega)]
          show 48 + n % 10 ≤ 57
          omega

theorem digitsToNat_append_one (a : List Char) (c : Char) :
    digitsToNat (a ++ [c]) = digitsToNat a * 10 + (c.toNat - 48) := by
  rw [digitsToNat, digitsToNat, List.foldl_append]
  rfl

theorem digitsToNat_natDigits (n : Nat) : digitsToNat (natDigits n) = n := by
  induction n using Nat.strong_induction_on with
  | _ n ih =>
    rw [natDigits]
    by_cases h : n < 10
    · rw [dif_pos h]
      show digitsToNat [Char.ofNat (48 + n)] = n
      rw [digitsToNat]
      show 0 * 10 + ((Char.ofNat (48 + n)).toNat - 48) = n
      rw [toNat_char_ofNat_small (48 + n) (by omega)]
      omega
    · rw [dif_neg h, digitsToNat_append_one,
        ih (n / 10) (Nat.div_lt_self (by omega) (by omega)),
        toNat_char_ofNat_small _ (by omega)]
      omega

theorem natDigits_head_ne_zero (n : Nat) (h : 1 ≤ n) :
    (natDigits n).headD '0' ≠ '0' := by
  induction n using Nat.strong_induction_on with
  | _ n ih =>
    rw [natDigits]
    by_cases h10 : n < 10
    · rw [dif_pos h10]
      rw [List.headD_cons]
      intro hc
      have : (Char.ofNat (48 + n)).toNat = '0'.toNat := by rw [hc]
      rw [toNat_char_ofNat_small (48 + n) (by omega)] at this
      have h48 : '0'.toNat = 48 := rfl
      omega
    · rw [dif_neg h10]
      rcases hx : natDigits (n / 10) with _ | ⟨d, ds⟩
      · exact absurd hx (natDigits_ne_nil (n / 10))
      · rw [List.cons_append, List.headD_cons]
        have := ih (n / 10) (Nat.div_lt_self (by omega) (by omega)) (by omega)
        rw [hx, List.headD_cons] at this
        exact this

theorem splitDigits_digits (ds rest : List Char)
    (hds : ∀ c ∈ ds, '0' ≤ c ∧ c ≤ '9')
    (hrest : ∀ c cs', rest = c :: cs' → ¬('0' ≤ c ∧ c ≤ '9')) :
    splitDigits (ds ++ rest) = (ds, rest) := by
  induction ds with
  | nil =>
    rw [List.nil_append]
    rcases rest with _ | ⟨c, cs'⟩
    · rfl
    · rw [splitDigits, if_neg (hrest c cs' rfl)]
  | cons c ds ih =>
    rw [List.cons_append, splitDigits,
      if_pos (hds c (List.mem_cons_self _ _)),
      ih (fun c' hc' => hds c' (List.mem_cons_of_mem _ hc'))]

/-- Characters that may legally follow a printed JSON value inside a
larger printed document: a separator, a closing bracket, a closing brace,
or the end of input. -/
def numDelim (rest : List Char) : Prop :=
  ∀ c cs', rest = c :: cs' →
    ¬('0' ≤ c ∧ c ≤ '9') ∧ c ≠ '.' ∧ c ≠ 'e' ∧ c ≠ 'E' ∧ c ≠ '-'

theorem parseNumCore_digits (m : Nat) (rest : List Char) (neg : Bool)
    (hrest : numDelim rest) :
    parseNumCore (natDigits m ++ rest) neg =
      some (.vint (if neg then -(m : Int) else (m : Int)), rest) := by
  have hsplit := splitDigits_digits (natDigits m) rest (natDigits_digits m)
    (fun c cs' hc => (hrest c cs' hc).1)
  rw [parseNumCore]
  simp only [hsplit]
  rw [if_neg (by
    intro habs
    exact natDigits_ne_nil m (List.isEmpty_iff.mp habs))]
  rw [if_neg (by
    rintro ⟨hlen, hhead⟩
    have hm : 1 ≤ m := by
      by_contra hm
      have : m = 0 := by omega
      subst this
      rw [show natDigits 0 = ['0'] by rw [natDigits]; rfl] at hlen
      simp at hlen
    exact natDigits_head_ne_zero m hm hhead)]
  rw [if_neg (by
    rcases rest with _ | ⟨c, cs'⟩
    · intro habs
      rcases habs with h | h | h <;> exact absurd h (by decide)
    · obtain ⟨-, h1, h2, h3, -⟩ := hrest c cs' rfl
      rw [List.headD_cons]
      rintro (h | h | h)
      · exact h1 h
      · exact h2 h
      · exact h3 h)]
  rw [digitsToNat_natDigits]

theorem parseNum_intRepr (n : Int) (rest : List Char) (hrest : numDelim rest) :
    parseNum (intRepr n ++ rest) = some (.vint n, rest) := by
  rw [intRepr]
  by_cases hn : n < 0
  · rw [if_pos hn, List.cons_append, parseNum, if_pos rfl,
      parseNumCore_digits n.natAbs rest true hrest]
    show some (PyVal.vint (-(n.natAbs : Int)), rest) = some (.vint n, rest)
    have hval : -((n.natAbs : Nat) : Int) = n := by omega
    rw [hval]
  · rw [if_neg hn]
    rcases hx : natDigits n.toNat with _ | ⟨d, ds⟩
    · exact absurd hx (natDigits_ne_nil n.toNat)
    · have hd : '0' ≤ d ∧ d ≤ '9' := by
        refine natDigits_digits n.toNat d ?_
        rw [hx]
        exact List.mem_cons_self _ _
      rw [List.cons_append, parseNum]
      rw [if_neg (by
        intro habs
        subst habs
        rcases hd with ⟨hd1, -⟩
        rw [char_le_iff_toNat] at hd1
        have : '0'.toNat = 48 := rfl
        have h45 : ('-' : Char).toNat = 45 := rfl
        omega)]
      rw [← List.cons_append, ← hx, parseNumCore_digits n.toNat rest false hrest]
      show some (PyVal.vint ((n.toNat : Nat) : Int), rest) = some (.vint n, rest)
      have hval : ((n.toNat : Nat) : Int) = n := by omega
      rw [hval]

/-! ### Sorting by key, canonicalization, and the encoder -/

/-- Comparison used by `sorted(d.items())`: Python compares the item
tuples, which for distinct string keys is the code-point order of the
keys. -/
def keyLE (a b : PyKey × PyVal) : Bool :=
  match a.1, b.1 with
  | .str s₁, .str s₂ => decide (s₁ < s₂) || decide (s₁ = s₂)
  | _, _ => true

/-- Ordered insertion for the key sort. -/
def insertPairByKey (x : PyKey × PyVal) :
    List (PyKey × PyVal) → List (PyKey × PyVal)
  | [] => [x]
  | y :: ys => if keyLE x y then x :: y :: ys else y :: insertPairByKey x ys

/-- `sorted(d.items())`: insertion sort ascending by key. -/
def sortPairsByKey : List (PyKey × PyVal) → List (PyKey × PyVal)
  | [] => []
  | x :: xs => insertPairByKey x (sortPairsByKey xs)

mutual
/-- Recursive key-sorting of every dictionary in a value — the effect
`sort_keys=True` has on the emitted document. -/
def canon : PyVal → PyVal
  | .vstr s => .vstr s
  | .vint n => .vint n
  | .vbool b => .vbool b
  | .vnull => .vnull
  | .vlist xs => .vlist (canonList xs)
  | .vdict entries => .vdict (sortPairsByKey (canonDict entries))

def canonList : List PyVal → List PyVal
  | [] => []
  | x :: xs => canon x :: canonList xs

def canonDict : List (PyKey × PyVal) → List (PyKey × PyVal)
  | [] => []
  | (k, v) :: rest => (k, canon v) :: canonDict rest
end

mutual
/-- The encoder proper, after key sorting: CPython separators `", "` and
`": "`, `ensure_ascii` string escaping, and a `TypeError` (`none`) on a
non-string dictionary key. -/
def dumpVal : PyVal → Option (List Char)
  | .vstr s => some (encodeString s)
  | .vint n => some (intRepr n)
  | .vbool true => some ['t', 'r', 'u', 'e']
  | .vbool false => some ['f', 'a', 'l', 's', 'e']
  | .vnull => some ['n', 'u', 'l', 'l']
  | .vlist xs =>
    match dumpItems xs with
    | some body => some ('[' :: body ++ [']'])
    | none => none
  | .vdict entries =>
    match dumpPairs entries with
    | some body => some ('\x7b' :: body ++ ['\x7d'])
    | none => none

def dumpItems : List PyVal → Option (List Char)
  | [] => some []
  | [x] => dumpVal x
  | x :: y :: rest =>
    match dumpVal x, dumpItems (y :: rest) with
    | some cx, some cr => some (cx ++ ',' :: ' ' :: cr)
    | _, _ => none

def dumpPairs : List (PyKey × PyVal) → Option (List Char)
  | [] => some []
  | [(PyKey.str s, v)] =>
    match dumpVal v with
    | some cv => some (encodeString s ++ ':' :: ' ' :: cv)
    | none => none
  | (PyKey.str s, v) :: e₂ :: rest =>
    match dumpVal v, dumpPairs (e₂ :: rest) with
    | some cv, some cr => some (encodeString s ++ ':' :: ' ' :: cv ++ ',' :: ' ' :: cr)
    | _, _ => none
  | (PyKey.builtinId, _) :: _ => none
end

/-- `json.dumps(obj, sort_keys=True)` over the model's value domain:
sort every dictionary by key, then encode. -/
def dumps (v : PyVal) : Option (List Char) :=
  dumpVal (canon v)

mutual
/-- The recursive-descent value scanner of `json.loads`, fuel-indexed
(`fuel` bounds the nesting depth).  Input is expected with leading
whitespace already skipped, as Python's `scan_once` expects. -/
def parseVal : Nat → List Char → Option (PyVal × List Char)
  | 0, _ => none
  | _ + 1, [] => none
  | _ + 1, '"' :: rest =>
    (match parseStr rest with
     | some (s, r) => some (.vstr (String.mk s), r)
     | none => none)
  | _ + 1, 't' :: 'r' :: 'u' :: 'e' :: rest => some (.vbool true, rest)
  | _ + 1, 'f' :: 'a' :: 'l' :: 's' :: 'e' :: rest => some (.vbool false, rest)
  | _ + 1, 'n' :: 'u' :: 'l' :: 'l' :: rest => some (.vnull, rest)
  | fuel + 1, '[' :: rest =>
    if (skipWs rest).headD ' ' = ']' then some (.vlist [], (skipWs rest).tail)
    else
      match parseItems fuel (skipWs rest) with
      | some (xs, r) => some (.vlist xs, r)
      | none => none
  | fuel + 1, '\x7b' :: rest =>
    if (skipWs rest).headD ' ' = '\x7d' then some (.vdict [], (skipWs rest).tail)
    else
      match parsePairs fuel (skipWs rest) with
      | some (es, r) => some (.vdict es, r)
      | none => none
  | _ + 1, c :: rest => parseNum (c :: rest)

def parseItems : Nat → List Char → Option (List PyVal × List Char)
  | 0, _ => none
  | fuel + 1, cs =>
    match parseVal fuel cs with
    | none => none
    | some (v, r) =>
      if (skipWs r).headD ' ' = ',' then
        match parseItems fuel (skipWs (skipWs r).tail) with
        | some (xs, r₃) => some (v :: xs, r₃)
        | none => none
      else if (skipWs r).headD ' ' = ']' then some ([v], (skipWs r).tail)
      else none

def parsePairs : Nat → List Char → Option (List (PyKey × PyVal) × List Char)
  | 0, _ => none
  | fuel + 1, '"' :: rest =>
    (match parseStr rest with
     | none => none
     | some (ks, r₁) =>
       if (skipWs r₁).headD ' ' = ':' then
         match parseVal fuel (skipWs (skipWs r₁).tail) with
         | none => none
         | some (v, r₂) =>
           if (skipWs r₂).headD ' ' = ',' then
             match parsePairs fuel (skipWs (skipWs r₂).tail) with
             | some (es, r₃) => some ((PyKey.str (String.mk ks), v) :: es, r₃)
             | none => none
           else if (skipWs r₂).headD ' ' = '\x7d' then
             some ([(PyKey.str (String.mk ks), v)], (skipWs r₂).tail)
           else none
       else none)
  | _ + 1, _ => none
end

/-- `json.loads`: skip leading whitespace, scan one value, and require
only whitespace to remain. -/
def loads (cs : List Char) : Option PyVal :=
  match parseVal (cs.length + 1) (skipWs cs) with
  | some (v, rest) => if (skipWs rest).isEmpty then some v else none
  | none => none

mutual
/-- Structural size of a value, bounding the fuel the scanner needs. -/
def pySize : PyVal → Nat
  | .vstr _ => 1
  | .vint _ => 1
  | .vbool _ => 1
  | .vnull => 1
  | .vlist xs => 1 + pySizeList xs
  | .vdict entries => 1 + pySizeDict entries

def pySizeList : List PyVal → Nat
  | [] => 0
  | x :: xs => pySize x + 1 + pySizeList xs

def pySizeDict : List (PyKey × PyVal) → Nat
  | [] => 0
  | (_, v) :: rest => pySize v + 1 + pySizeDict rest
end

mutual
/-- Well-formedness of a value as a Python object decoded from a
configuration document: every dictionary key is a string, and keys are
pairwise distinct at each level. -/
def wfKeys : PyVal → Bool
  | .vstr _ => true
  | .vint _ => true
  | .vbool _ => true
  | .vnull => true
  | .vlist xs => wfKeysList xs
  | .vdict entries =>
    entries.all (fun kv => match kv.1 with | .str _ => true | _ => false) &&
      decide (entries.map Prod.fst).Nodup && wfKeysDict entries

def wfKeysList : List PyVal → Bool
  | [] => true
  | x :: xs => wfKeys x && wfKeysList xs

def wfKeysDict : List (PyKey × PyVal) → Bool
  | [] => true
  | (_, v) :: rest => wfKeys v && wfKeysDict rest
end

mutual
/-- Python `==` on decoded values: dictionaries compare by key set and
per-key values (insertion order irrelevant), lists element-wise. -/
def pyEq : PyVal → PyVal → Bool
  | .vstr a, .vstr b => a == b
  | .vint a, .vint b => a == b
  | .vbool a, .vbool b => a == b
  | .vnull, .vnull => true
  | .vlist xs, .vlist ys => pyEqList xs ys
  | .vdict d₁, .vdict d₂ => d₁.length == d₂.length && pyEqDict d₁ d₂
  | _, _ => false

def pyEqList : List PyVal → List PyVal → Bool
  | [], [] => true
  | x :: xs, y :: ys => pyEq x y && pyEqList xs ys
  | _, _ => false

def pyEqDict : List (PyKey × PyVal) → List (PyKey × PyVal) → Bool
  | [], _ => true
  | (k, v) :: tl, d₂ =>
    (match dictGet d₂ k with
     | some v₂ => pyEq v v₂
     | none => false) && pyEqDict tl d₂
end

/-! ### Scanner lemmas -/

/-- What may legally follow a printed value inside a printed document:
nothing, or a separator/closer. -/
def Delim (rest : List Char) : Prop :=
  rest = [] ∨ ∃ c cs', rest = c :: cs' ∧ (c = ',' ∨ c = ']' ∨ c = '\x7d')

theorem char_ne_of_toNat_ne (a b : Char) (h : a.toNat ≠ b.toNat) : a ≠ b :=
  fun he => h (by rw [he])

theorem delim_numDelim (rest : List Char) (h : Delim rest) : numDelim rest := by
  intro c cs' hc
  rcases h with h | ⟨c₀, cs₀, hrest, hc₀⟩
  · rw [h] at hc
    exact absurd hc (by simp)
  · rw [hrest] at hc
    injection hc with h₁ h₂
    subst h₁
    rcases hc₀ with rfl | rfl | rfl
    · exact ⟨by decide, by decide, by decide, by decide, by decide⟩
    · exact ⟨by decide, by decide, by decide, by decide, by decide⟩
    · exact ⟨by decide, by decide, by decide, by decide, by decide⟩

theorem skipWs_cons_not_ws (c : Char) (rest : List Char)
    (h : isWsChar c = false) : skipWs (c :: rest) = c :: rest := by
  rw [skipWs]
  rw [h]
  simp

theorem skipWs_cons_ws (c : Char) (rest : List Char)
    (h : isWsChar c = true) : skipWs (c :: rest) = skipWs rest := by
  rw [skipWs, h]
  simp

/-- The first character of any encoded value: a quote, a minus sign or
digit, one of `t`/`f`/`n`, or an opening bracket/brace — in particular
never whitespace, never a separator, and never a closer. -/
theorem dumpVal_head (v : PyVal) (cs : List Char) (h : dumpVal v = some cs) :
    ∃ c cs', cs = c :: cs' ∧ isWsChar c = false ∧ c ≠ ']' ∧ c ≠ '\x7d' ∧
      c ≠ ',' ∧ c ≠ ':' := by
  rcases v with s | n | b | _ | xs | entries
  · rw [dumpVal] at h
    injection h with h
    rw [encodeString] at h
    exact ⟨'"', _, h.symm, by decide, by decide, by decide, by decide, by decide⟩
  · rw [dumpVal] at h
    injection h with h
    rw [intRepr] at h
    by_cases hn : n < 0
    · rw [if_pos hn] at h
      exact ⟨'-', _, h.symm, by decide, by decide, by decide, by decide, by decide⟩
    · rw [if_neg hn] at h
      rcases hx : natDigits n.toNat with _ | ⟨d, ds⟩
      · exact absurd hx (natDigits_ne_nil n.toNat)
      · rw [hx] at h
        obtain ⟨hd1, hd2⟩ := natDigits_digits n.toNat d (by
          rw [hx]; exact List.mem_cons_self _ _)
        rw [char_le_iff_toNat] at hd1 hd2
        have h48 : ('0' : Char).toNat = 48 := rfl
        have h57 : ('9' : Char).toNat = 57 := rfl
        refine ⟨d, ds, h.symm, ?_, ?_, ?_, ?_, ?_⟩
        · rw [isWsChar]
          have : (' ' : Char).toNat = 32 := rfl
          have : ('\t' : Char).toNat = 9 := rfl
          have : ('\n' : Char).toNat = 10 := rfl
          have : ('\r' : Char).toNat = 13 := rfl
          simp only [Bool.or_eq_false_iff, decide_eq_false_iff_not]
          refine ⟨⟨⟨?_, ?_⟩, ?_⟩, ?_⟩ <;>
            exact char_ne_of_toNat_ne _ _ (by omega)
        · have hk : (']' : Char).toNat = 93 := rfl
          exact char_ne_of_toNat_ne _ _ (by omega)
        · have hk : ('\x7d' : Char).toNat = 125 := rfl
          exact char_ne_of_toNat_ne _ _ (by omega)
        · have hk : (',' : Char).toNat = 44 := rfl
          exact char_ne_of_toNat_ne _ _ (by omega)
        · have hk : (':' : Char).toNat = 58 := rfl
          exact char_ne_of_toNat_ne _ _ (by omega)
  · rcases b with _ | _
    · rw [dumpVal] at h
      injection h with h
      exact ⟨'f', _, h.symm, by decide, by decide, by decide, by decide, by decide⟩
    · rw [dumpVal] at h
      injection h with h
      exact ⟨'t', _, h.symm, by decide, by decide, by decide, by decide, by decide⟩
  · rw [dumpVal] at h
    injection h with h
    exact ⟨'n', _, h.symm, by decide, by decide, by decide, by decide, by decide⟩
  · rw [dumpVal] at h
    rcases hx : dumpItems xs with _ | body
    · rw [hx] at h
      exact absurd h (by simp)
    · rw [hx] at h
      dsimp only at h
      injection h with h
      exact ⟨'[', _, h.symm, by decide, by decide, by decide, by decide, by decide⟩
  · rw [dumpVal] at h
    rcases hx : dumpPairs entries with _ | body
    · rw [hx] at h
      exact absurd h (by simp)
    · rw [hx] at h
      dsimp only at h
      injection h with h
      exact ⟨'\x7b', _, h.symm, by decide, by decide, by decide, by decide, by decide⟩

set_option maxHeartbeats 1000000 in
/-- With a first character that rules out every literal keyword, string,
array and object opener, the scanner falls through to the number path. -/
theorem parseVal_num (fuel : Nat) (c : Char) (rest : List Char)
    (h1 : c ≠ '"') (h2 : c ≠ 't') (h3 : c ≠ 'f') (h4 : c ≠ 'n')
    (h5 : c ≠ '[') (h6 : c ≠ '\x7b') :
    parseVal (fuel + 1) (c :: rest) = parseNum (c :: rest) := by
  rw [parseVal.eq_def]
  split
  · rename_i heq
    exact absurd heq (by omega)
  · rename_i heqf heql
    exact absurd heql (by simp)
  · rename_i heqf heql
    injection heql with hc
    exact absurd hc h1
  · rename_i heqf heql
    injection heql with hc
    exact absurd hc h2
  · rename_i heqf heql
    injection heql with hc
    exact absurd hc h3
  · rename_i heqf heql
    injection heql with hc
    exact absurd hc h4
  · rename_i heqf heql
    injection heql with hc
    exact absurd hc h5
  · rename_i heqf heql
    injection heql with hc
    exact absurd hc h6
  · rename_i heqf heql
    injection heql with hc hrest
    subst hc
    subst hrest
    rfl

/-- Unfolding of the scanner at a leading quote. -/
theorem parseVal_quote (f : Nat) (rest : List Char) :
    parseVal (f + 1) ('"' :: rest) =
      (match parseStr rest with
       | some (s, r) => some (.vstr (String.mk s), r)
       | none => none) := rfl

/-- Unfolding of the scanner at a leading `[`. -/
theorem parseVal_lbrack (f : Nat) (rest : List Char) :
    parseVal (f + 1) ('[' :: rest) =
      (if (skipWs rest).headD ' ' = ']' then some (.vlist [], (skipWs rest).tail)
       else
         match parseItems f (skipWs rest) with
         | some (xs, r) => some (.vlist xs, r)
         | none => none) := rfl

/-- Unfolding of the scanner at a leading opening brace. -/
theorem parseVal_lbrace (f : Nat) (rest : List Char) :
    parseVal (f + 1) ('\x7b' :: rest) =
      (if (skipWs rest).headD ' ' = '\x7d' then some (.vdict [], (skipWs rest).tail)
       else
         match parsePairs f (skipWs rest) with
         | some (es, r) => some (.vdict es, r)
         | none => none) := rfl

/-- Unfolding of the array-element scanner at positive fuel. -/
theorem parseItems_succ (f : Nat) (cs : List Char) :
    parseItems (f + 1) cs =
      (match parseVal f cs with
       | none => none
       | some (v, r) =>
         if (skipWs r).headD ' ' = ',' then
           match parseItems f (skipWs (skipWs r).tail) with
           | some (xs, r₃) => some (v :: xs, r₃)
           | none => none
         else if (skipWs r).headD ' ' = ']' then some ([v], (skipWs r).tail)
         else none) := rfl

/-- Unfolding of the object-member scanner at a leading quote. -/
theorem parsePairs_quote (f : Nat) (rest : List Char) :
    parsePairs (f + 1) ('"' :: rest) =
      (match parseStr rest with
       | none => none
       | some (ks, r₁) =>
         if (skipWs r₁).headD ' ' = ':' then
           match parseVal f (skipWs (skipWs r₁).tail) with
           | none => none
           | some (v, r₂) =>
             if (skipWs r₂).headD ' ' = ',' then
               match parsePairs f (skipWs (skipWs r₂).tail) with
               | some (es, r₃) => some ((PyKey.str (String.mk ks), v) :: es, r₃)
               | none => none
             else if (skipWs r₂).headD ' ' = '\x7d' then
               some ([(PyKey.str (String.mk ks), v)], (skipWs r₂).tail)
             else none
         else none) := rfl

theorem pySize_pos (v : PyVal) : 1 ≤ pySize v := by
  rcases v <;> rw [pySize] <;> omega

/-- The first character of an encoded non-empty array body is the first
character of its first element: non-whitespace and not `]`. -/
theorem dumpItems_head (x : PyVal) (xs : List PyVal) (body : List Char)
    (h : dumpItems (x :: xs) = some body) :
    ∃ c b', body = c :: b' ∧ isWsChar c = false ∧ c ≠ ']' := by
  rcases xs with _ | ⟨y, t⟩
  · rw [dumpItems] at h
    obtain ⟨c, cs', hcs, hws, hne, _, _, _⟩ := dumpVal_head x body h
    exact ⟨c, cs', hcs, hws, hne⟩
  · rw [dumpItems] at h
    rcases hx : dumpVal x with _ | cx
    · rw [hx] at h
      exact absurd h (by simp)
    · rcases hr : dumpItems (y :: t) with _ | cr
      · rw [hx, hr] at h
        exact absurd h (by simp)
      · rw [hx, hr] at h
        dsimp only at h
        injection h with h
        obtain ⟨c, cs', hcs, hws, hne, _, _, _⟩ := dumpVal_head x cx hx
        subst hcs
        exact ⟨c, cs' ++ ',' :: ' ' :: cr, by rw [← h]; simp, hws, hne⟩

/-- The first character of an encoded non-empty object body is the opening
quote of its first key. -/
theorem dumpPairs_head (e : PyKey × PyVal) (es : List (PyKey × PyVal))
    (body : List Char) (h : dumpPairs (e :: es) = some body) :
    ∃ b', body = '"' :: b' := by
  rcases e with ⟨k, v⟩
  rcases k with s | _
  · rcases es with _ | ⟨e₂, t⟩
    · rw [dumpPairs] at h
      rcases hv : dumpVal v with _ | cv
      · rw [hv] at h
        exact absurd h (by simp)
      · rw [hv] at h
        dsimp only at h
        injection h with h
        rw [encodeString] at h
        exact ⟨encBody s.toList ++ ['"'] ++ ':' :: ' ' :: cv,
          by rw [← h]; simp⟩
    · rw [dumpPairs] at h
      rcases hv : dumpVal v with _ | cv
      · rw [hv] at h
        exact absurd h (by simp)
      · rcases hr : dumpPairs (e₂ :: t) with _ | cr
        · rw [hv, hr] at h
          exact absurd h (by simp)
        · rw [hv, hr] at h
          dsimp only at h
          injection h with h
          rw [encodeString] at h
          exact ⟨encBody s.toList ++ ['"'] ++ ':' :: ' ' :: cv ++ ',' :: ' ' :: cr,
            by rw [← h]; simp⟩
  · rw [dumpPairs] at h
    exact absurd h (by simp)

/-- Scanning a printed value (resp. printed array body before `]`, printed
object body before a closing brace) with enough fuel recovers exactly the
printed value and leaves the trailing input untouched. -/
theorem parse_print (fuel : Nat) :
    (∀ v cs rest, dumpVal v = some cs → pySize v ≤ fuel → Delim rest →
      parseVal fuel (cs ++ rest) = some (v, rest)) ∧
    (∀ xs body rest, dumpItems xs = some body → xs ≠ [] →
      pySizeList xs ≤ fuel →
      parseItems fuel (body ++ ']' :: rest) = some (xs, rest)) ∧
    (∀ es body rest, dumpPairs es = some body → es ≠ [] →
      pySizeDict es ≤ fuel →
      parsePairs fuel (body ++ '\x7d' :: rest) = some (es, rest)) := by
  induction fuel with
  | zero =>
    refine ⟨fun v cs rest _ hsz _ => ?_, fun xs body rest _ hne hsz => ?_,
      fun es body rest _ hne hsz => ?_⟩
    · exact absurd hsz (by have := pySize_pos v; omega)
    · rcases xs with _ | ⟨x, t⟩
      · exact absurd rfl hne
      · rw [pySizeList] at hsz
        have := pySize_pos x
        omega
    · rcases es with _ | ⟨⟨k, v⟩, t⟩
      · exact absurd rfl hne
      · rw [pySizeDict] at hsz
        have := pySize_pos v
        omega
  | succ f ih =>
    obtain ⟨ihV, ihI, ihP⟩ := ih
    refine ⟨?_, ?_, ?_⟩
    · intro v cs rest hdump hsz hdelim
      rcases v with s | n | b | _ | xs | entries
      · rw [dumpVal] at hdump
        injection hdump with hcs
        subst hcs
        rw [encodeString]
        simp only [List.cons_append, List.append_assoc, List.singleton_append,
            List.nil_append]
        rw [parseVal_quote, parseStr_encBody]
        dsimp only
        rw [show String.mk s.toList = s from by cases s; rfl]
      · rw [dumpVal] at hdump
        injection hdump with hcs
        subst hcs
        rcases hrepr : intRepr n with _ | ⟨c, tl⟩
        · exfalso
          rw [intRepr] at hrepr
          by_cases hn : n < 0
          · rw [if_pos hn] at hrepr
            exact absurd hrepr (by simp)
          · rw [if_neg hn] at hrepr
            exact natDigits_ne_nil _ hrepr
        · obtain ⟨h1, h2, h3, h4, h5, h6⟩ :
              c ≠ '"' ∧ c ≠ 't' ∧ c ≠ 'f' ∧ c ≠ 'n' ∧ c ≠ '[' ∧ c ≠ '\x7b' := by
            rw [intRepr] at hrepr
            by_cases hn : n < 0
            · rw [if_pos hn] at hrepr
              injection hrepr with hc _
              subst hc
              exact ⟨by decide, by decide, by decide, by decide, by decide,
                by decide⟩
            · rw [if_neg hn] at hrepr
              obtain ⟨hd1, hd2⟩ := natDigits_digits n.toNat c
                (by rw [hrepr]; exact List.mem_cons_self _ _)
              rw [char_le_iff_toNat] at hd1 hd2
              have h48 : ('0' : Char).toNat = 48 := rfl
              have h57 : ('9' : Char).toNat = 57 := rfl
              have e1 : ('"' : Char).toNat = 34 := rfl
              have e2 : ('t' : Char).toNat = 116 := rfl
              have e3 : ('f' : Char).toNat = 102 := rfl
              have e4 : ('n' : Char).toNat = 110 := rfl
              have e5 : ('[' : Char).toNat = 91 := rfl
              have e6 : ('\x7b' : Char).toNat = 123 := rfl
              exact ⟨char_ne_of_toNat_ne _ _ (by omega),
                char_ne_of_toNat_ne _ _ (by omega),
                char_ne_of_toNat_ne _ _ (by omega),
                char_ne_of_toNat_ne _ _ (by omega),
                char_ne_of_toNat_ne _ _ (by omega),
                char_ne_of_toNat_ne _ _ (by omega)⟩
          rw [List.cons_append,
            parseVal_num f c (tl ++ rest) h1 h2 h3 h4 h5 h6,
            ← List.cons_append, ← hrepr,
            parseNum_intRepr n rest (delim_numDelim rest hdelim)]
      · rcases b with _ | _
        · rw [dumpVal] at hdump
          injection hdump with hcs
          subst hcs
          rfl
        · rw [dumpVal] at hdump
          injection hdump with hcs
          subst hcs
          rfl
      · rw [dumpVal] at hdump
        injection hdump with hcs
        subst hcs
        rfl
      · rw [dumpVal] at hdump
        rcases hbody : dumpItems xs with _ | body₀
        · rw [hbody] at hdump
          exact absurd hdump (by simp)
        · rw [hbody] at hdump
          dsimp only at hdump
          injection hdump with hcs
          subst hcs
          simp only [List.cons_append, List.append_assoc, List.singleton_append,
            List.nil_append]
          rw [parseVal_lbrack]
          rcases xs with _ | ⟨x, t⟩
          · rw [dumpItems] at hbody
            injection hbody with hb
            subst hb
            rw [List.nil_append]
            rw [skipWs_cons_not_ws ']' rest (by decide)]
            rfl
          · obtain ⟨c, b', hb, hws, hne⟩ := dumpItems_head x t body₀ hbody
            subst hb
            rw [List.cons_append]
            rw [skipWs_cons_not_ws c _ hws]
            simp only [List.headD_cons]
            rw [if_neg hne]
            have h5 := ihI (x :: t) (c :: b') rest hbody (by simp)
              (by rw [pySize] at hsz; omega)
            rw [List.cons_append] at h5
            rw [h5]
      · rw [dumpVal] at hdump
        rcases hbody : dumpPairs entries with _ | body₀
        · rw [hbody] at hdump
          exact absurd hdump (by simp)
        · rw [hbody] at hdump
          dsimp only at hdump
          injection hdump with hcs
          subst hcs
          simp only [List.cons_append, List.append_assoc, List.singleton_append,
            List.nil_append]
          rw [parseVal_lbrace]
          rcases entries with _ | ⟨e, t⟩
          · rw [dumpPairs] at hbody
            injection hbody with hb
            subst hb
            rw [List.nil_append]
            rw [skipWs_cons_not_ws '\x7d' rest (by decide)]
            rfl
          · obtain ⟨b', hb⟩ := dumpPairs_head e t body₀ hbody
            subst hb
            rw [List.cons_append]
            rw [skipWs_cons_not_ws '"' _ (by decide)]
            simp only [List.headD_cons]
            rw [if_neg (by decide)]
            have h5 := ihP (e :: t) ('"' :: b') rest hbody (by simp)
              (by rw [pySize] at hsz; omega)
            rw [List.cons_append] at h5
            rw [h5]
    · intro xs body rest hdump hne hsz
      rcases xs with _ | ⟨x, t⟩
      · exact absurd rfl hne
      · rcases t with _ | ⟨y, t₂⟩
        · rw [dumpItems] at hdump
          rw [parseItems_succ]
          rw [ihV x body (']' :: rest) hdump
            (by simp only [pySizeList] at hsz; omega)
            (Or.inr ⟨']', rest, rfl, Or.inr (Or.inl rfl)⟩)]
          rfl
        · rw [dumpItems] at hdump
          rcases hx : dumpVal x with _ | cx
          · rw [hx] at hdump
            exact absurd hdump (by simp)
          rcases hr : dumpItems (y :: t₂) with _ | cr
          · rw [hx, hr] at hdump
            exact absurd hdump (by simp)
          rw [hx, hr] at hdump
          dsimp only at hdump
          injection hdump with hb
          subst hb
          simp only [List.append_assoc, List.cons_append]
          rw [parseItems_succ]
          rw [ihV x cx (',' :: ' ' :: (cr ++ ']' :: rest)) hx
            (by simp only [pySizeList] at hsz; have := pySize_pos y; omega)
            (Or.inr ⟨',', _, rfl, Or.inl rfl⟩)]
          dsimp only
          rw [skipWs_cons_not_ws ',' _ (by decide)]
          simp only [List.headD_cons, List.tail_cons]
          rw [if_pos trivial]
          rw [skipWs_cons_ws ' ' _ (by decide)]
          obtain ⟨c₂, b₂, hb₂, hws₂, _⟩ := dumpItems_head y t₂ cr hr
          subst hb₂
          rw [List.cons_append, skipWs_cons_not_ws c₂ _ hws₂]
          have h5 := ihI (y :: t₂) (c₂ :: b₂) rest hr (by simp)
            (by simp only [pySizeList] at hsz ⊢; have := pySize_pos x; omega)
          rw [List.cons_append] at h5
          rw [h5]
    · intro es body rest hdump hne hsz
      rcases es with _ | ⟨⟨k, v⟩, t⟩
      · exact absurd rfl hne
      · rcases k with s | _
        · rcases t with _ | ⟨e₂, t₂⟩
          · rw [dumpPairs] at hdump
            rcases hv : dumpVal v with _ | cv
            · rw [hv] at hdump
              exact absurd hdump (by simp)
            rw [hv] at hdump
            dsimp only at hdump
            injection hdump with hb
            subst hb
            rw [encodeString]
            simp only [List.append_assoc, List.cons_append,
              List.singleton_append, List.nil_append]
            rw [parsePairs_quote, parseStr_encBody]
            dsimp only
            rw [skipWs_cons_not_ws ':' _ (by decide)]
            simp only [List.headD_cons, List.tail_cons]
            rw [if_pos trivial]
            rw [skipWs_cons_ws ' ' _ (by decide)]
            obtain ⟨c₃, b₃, hb₃, hws₃, _, _, _, _⟩ := dumpVal_head v cv hv
            subst hb₃
            rw [List.cons_append, skipWs_cons_not_ws c₃ _ hws₃]
            have h5 := ihV v (c₃ :: b₃) ('\x7d' :: rest) hv
              (by simp only [pySizeDict] at hsz; omega)
              (Or.inr ⟨'\x7d', rest, rfl, Or.inr (Or.inr rfl)⟩)
            rw [List.cons_append] at h5
            rw [h5]
            dsimp only
            rw [skipWs_cons_not_ws '\x7d' _ (by decide)]
            simp only [List.headD_cons, List.tail_cons]
            rw [if_neg (show ¬('\x7d' = ',') from by decide), if_pos trivial]
            rw [show String.mk s.toList = s from by cases s; rfl]
          · rw [dumpPairs] at hdump
            rcases hv : dumpVal v with _ | cv
            · rw [hv] at hdump
              exact absurd hdump (by simp)
            rcases hr : dumpPairs (e₂ :: t₂) with _ | cr
            · rw [hv, hr] at hdump
              exact absurd hdump (by simp)
            rw [hv, hr] at hdump
            dsimp only at hdump
            injection hdump with hb
            subst hb
            rw [encodeString]
            simp only [List.append_assoc, List.cons_append,
              List.singleton_append, List.nil_append]
            rw [parsePairs_quote, parseStr_encBody]
            dsimp only
            rw [skipWs_cons_not_ws ':' _ (by decide)]
            simp only [List.headD_cons, List.tail_cons]
            rw [if_pos trivial]
            rw [skipWs_cons_ws ' ' _ (by decide)]
            obtain ⟨c₃, b₃, hb₃, hws₃, _, _, _, _⟩ := dumpVal_head v cv hv
            subst hb₃
            rw [List.cons_append, skipWs_cons_not_ws c₃ _ hws₃]
            have h5 := ihV v (c₃ :: b₃) (',' :: ' ' :: (cr ++ '\x7d' :: rest)) hv
              (by simp only [pySizeDict] at hsz; omega)
              (Or.inr ⟨',', _, rfl, Or.inl rfl⟩)
            rw [List.cons_append] at h5
            rw [h5]
            dsimp only
            rw [skipWs_cons_not_ws ',' _ (by decide)]
            simp only [List.headD_cons, List.tail_cons]
            rw [if_pos trivial]
            rw [skipWs_cons_ws ' ' _ (by decide)]
            obtain ⟨b₄, hb₄⟩ := dumpPairs_head e₂ t₂ cr hr
            subst hb₄
            rw [List.cons_append, skipWs_cons_not_ws '"' _ (by decide)]
            have h6 := ihP (e₂ :: t₂) ('"' :: b₄) rest hr (by simp)
              (by simp only [pySizeDict] at hsz ⊢; have := pySize_pos v; omega)
            rw [List.cons_append] at h6
            rw [h6]
            dsimp only
            rw [show String.mk s.toList = s from by cases s; rfl]
        · rw [dumpPairs] at hdump
          exact absurd hdump (by simp)

/-- Encoded output is at least as long as the structural size of the
value (array/object bodies: one less), so the input length bounds the
fuel the scanner needs. -/
theorem dump_size (N : Nat) :
    (∀ v, pySize v < N → ∀ cs, dumpVal v = some cs → pySize v ≤ cs.length) ∧
    (∀ xs, pySizeList xs < N → ∀ body, dumpItems xs = some body →
      pySizeList xs ≤ body.length + 1) ∧
    (∀ es, pySizeDict es < N → ∀ body, dumpPairs es = some body →
      pySizeDict es ≤ body.length + 1) := by
  induction N with
  | zero =>
    exact ⟨fun v h => absurd h (by omega), fun xs h => absurd h (by omega),
      fun es h => absurd h (by omega)⟩
  | succ n ih =>
    obtain ⟨ihV, ihI, ihP⟩ := ih
    refine ⟨?_, ?_, ?_⟩
    · intro v hN cs h
      rcases v with s | m | b | _ | xs | entries
      · rw [dumpVal] at h
        injection h with h
        rw [pySize, ← h, encodeString]
        simp
      · rw [dumpVal] at h
        injection h with h
        rw [pySize, ← h]
        rcases hrepr : intRepr m with _ | ⟨c, tl⟩
        · exfalso
          rw [intRepr] at hrepr
          by_cases hm : m < 0
          · rw [if_pos hm] at hrepr
            exact absurd hrepr (by simp)
          · rw [if_neg hm] at hrepr
            exact natDigits_ne_nil _ hrepr
        · simp
      · rcases b with _ | _
        · rw [dumpVal] at h
          injection h with h
          rw [pySize, ← h]
          simp
        · rw [dumpVal] at h
          injection h with h
          rw [pySize, ← h]
          simp
      · rw [dumpVal] at h
        injection h with h
        rw [pySize, ← h]
        simp
      · rw [dumpVal] at h
        rcases hb : dumpItems xs with _ | body₀
        · rw [hb] at h
          exact absurd h (by simp)
        · rw [hb] at h
          dsimp only at h
          injection h with h
          have hs := ihI xs (by rw [pySize] at hN; omega) body₀ hb
          rw [pySize, ← h]
          simp only [List.cons_append, List.length_cons, List.length_append,
            List.length_singleton]
          omega
      · rw [dumpVal] at h
        rcases hb : dumpPairs entries with _ | body₀
        · rw [hb] at h
          exact absurd h (by simp)
        · rw [hb] at h
          dsimp only at h
          injection h with h
          have hs := ihP entries (by rw [pySize] at hN; omega) body₀ hb
          rw [pySize, ← h]
          simp only [List.cons_append, List.length_cons, List.length_append,
            List.length_singleton]
          omega
    · intro xs hN body h
      rcases xs with _ | ⟨x, t⟩
      · rw [pySizeList]
        omega
      · rcases t with _ | ⟨y, t₂⟩
        · rw [dumpItems] at h
          have hs := ihV x (by simp only [pySizeList] at hN; omega) body h
          simp only [pySizeList]
          omega
        · rw [dumpItems] at h
          rcases hx : dumpVal x with _ | cx
          · rw [hx] at h
            exact absurd h (by simp)
          rcases hr : dumpItems (y :: t₂) with _ | cr
          · rw [hx, hr] at h
            exact absurd h (by simp)
          rw [hx, hr] at h
          dsimp only at h
          injection h with h
          have h1 := ihV x
            (by simp only [pySizeList] at hN; have := pySize_pos y; omega) cx hx
          have h2 := ihI (y :: t₂)
            (by simp only [pySizeList] at hN ⊢; have := pySize_pos x; omega)
            cr hr
          rw [← h]
          simp only [pySizeList, List.length_append, List.length_cons]
          simp only [pySizeList] at h2
          omega
    · intro es hN body h
      rcases es with _ | ⟨⟨k, v⟩, t⟩
      · rw [pySizeDict]
        omega
      · rcases k with s | _
        · rcases t with _ | ⟨e₂, t₂⟩
          · rw [dumpPairs] at h
            rcases hv : dumpVal v with _ | cv
            · rw [hv] at h
              exact absurd h (by simp)
            rw [hv] at h
            dsimp only at h
            injection h with h
            have h1 := ihV v (by simp only [pySizeDict] at hN; omega) cv hv
            rw [← h]
            simp only [pySizeDict, List.length_append, List.length_cons]
            omega
          · rw [dumpPairs] at h
            rcases hv : dumpVal v with _ | cv
            · rw [hv] at h
              exact absurd h (by simp)
            rcases hr : dumpPairs (e₂ :: t₂) with _ | cr
            · rw [hv, hr] at h
              exact absurd h (by simp)
            rw [hv, hr] at h
            dsimp only at h
            injection h with h
            have h1 := ihV v
              (by simp only [pySizeDict] at hN; have := pySize_pos e₂.2; omega)
              cv hv
            have h2 := ihP (e₂ :: t₂)
              (by simp only [pySizeDict] at hN ⊢; have := pySize_pos v; omega)
              cr hr
            rw [← h]
            simp only [pySizeDict, List.length_append, List.length_cons]
            simp only [pySizeDict] at h2
            omega
        · rw [dumpPairs] at h
          exact absurd h (by simp)

/-- Decoding inverts encoding: `json.loads` on any `dumpVal` output
recovers the encoded value exactly. -/
theorem loads_dumpVal (v : PyVal) (cs : List Char) (h : dumpVal v = some cs) :
    loads cs = some v := by
  obtain ⟨c, cs', hcs, hws, _, _, _, _⟩ := dumpVal_head v cs h
  have hsz : pySize v ≤ cs.length :=
    (dump_size (pySize v + 1)).1 v (by omega) cs h
  have hp := (parse_print (cs.length + 1)).1 v cs [] h (by omega) (Or.inl rfl)
  rw [List.append_nil] at hp
  rw [loads]
  rw [hcs, skipWs_cons_not_ws c cs' hws, ← hcs, hp]
  rfl

/-- `json.loads (json.dumps obj, sort_keys := True)` recovers the
key-sorted form of `obj`. -/
theorem loads_dumps (v : PyVal) (cs : List Char) (h : dumps v = some cs) :
    loads cs = some (canon v) :=
  loads_dumpVal (canon v) cs h

theorem insertPairByKey_perm (x : PyKey × PyVal) (l : List (PyKey × PyVal)) :
    List.Perm (insertPairByKey x l) (x :: l) := by
  induction l with
  | nil => rw [insertPairByKey]
  | cons y ys ih =>
    rw [insertPairByKey]
    by_cases h : keyLE x y
    · rw [if_pos h]
    · rw [if_neg h]
      exact (ih.cons y).trans (List.Perm.swap x y ys)

/-- `sorted(d.items())` is a permutation of the items. -/
theorem sortPairsByKey_perm (l : List (PyKey × PyVal)) :
    List.Perm (sortPairsByKey l) l := by
  induction l with
  | nil => exact List.Perm.refl _
  | cons x xs ih =>
    rw [sortPairsByKey]
    exact (insertPairByKey_perm x (sortPairsByKey xs)).trans (ih.cons x)

theorem canonDict_length (es : List (PyKey × PyVal)) :
    (canonDict es).length = es.length := by
  induction es with
  | nil => rw [canonDict]
  | cons e t ih =>
    rcases e with ⟨k, v⟩
    rw [canonDict]
    simp [ih]

theorem mem_canonDict (es : List (PyKey × PyVal)) (p : PyKey × PyVal)
    (hp : p ∈ canonDict es) : ∃ v, (p.1, v) ∈ es ∧ p.2 = canon v := by
  induction es with
  | nil =>
    rw [canonDict] at hp
    exact absurd hp (by simp)
  | cons e t ih =>
    rcases e with ⟨k, v⟩
    rw [canonDict] at hp
    rcases List.mem_cons.mp hp with h | h
    · subst h
      exact ⟨v, by simp, rfl⟩
    · obtain ⟨w, hw, he⟩ := ih h
      exact ⟨w, List.mem_cons_of_mem _ hw, he⟩

/-- With pairwise-distinct keys, lookup returns the value of the unique
matching entry. -/
theorem dictGet_of_mem_nodup (es : PyDict) (k : PyKey) (v : PyVal)
    (hmem : (k, v) ∈ es) (hnd : (es.map Prod.fst).Nodup) :
    dictGet es k = some v := by
  induction es with
  | nil => exact absurd hmem (by simp)
  | cons e t ih =>
    rcases e with ⟨k', v'⟩
    rw [dictGet]
    rcases List.mem_cons.mp hmem with h | h
    · injection h with h1 h2
      subst h1
      subst h2
      rw [if_pos rfl]
    · have hk : k ∈ t.map Prod.fst := List.mem_map_of_mem _ h
      have hne : k' ≠ k := by
        simp only [List.map_cons, List.nodup_cons] at hnd
        intro he
        subst he
        exact hnd.1 hk
      have hnd2 : (t.map Prod.fst).Nodup := by
        simp only [List.map_cons, List.nodup_cons] at hnd
        exact hnd.2
      rw [if_neg hne]
      exact ih h hnd2

/-- Python `==` on dictionaries holds once every entry of the left
dictionary is matched in the right one. -/
theorem pyEqDict_of_forall (d₂ : PyDict) : ∀ d₁ : PyDict,
    (∀ p ∈ d₁, ∃ v₂, dictGet d₂ p.1 = some v₂ ∧ pyEq p.2 v₂ = true) →
    pyEqDict d₁ d₂ = true := by
  intro d₁
  induction d₁ with
  | nil =>
    intro _
    rw [pyEqDict]
  | cons e t ih =>
    intro h
    rcases e with ⟨k, v⟩
    obtain ⟨v₂, hget, heq⟩ := h (k, v) (List.mem_cons_self _ _)
    have hget' : dictGet d₂ k = some v₂ := hget
    have heq' : pyEq v v₂ = true := heq
    rw [pyEqDict, hget']
    dsimp only
    rw [Bool.and_eq_true]
    exact ⟨heq', ih (fun p hp => h p (List.mem_cons_of_mem _ hp))⟩

/-- Encoding an object list succeeds once every key is a string and every
value encodes. -/
theorem dumpPairs_of_forall : ∀ l : List (PyKey × PyVal),
    (∀ p ∈ l, (∃ s, p.1 = PyKey.str s) ∧ ∃ cs, dumpVal p.2 = some cs) →
    ∃ body, dumpPairs l = some body := by
  intro l
  induction l with
  | nil =>
    intro _
    exact ⟨[], by rw [dumpPairs]⟩
  | cons e t ih =>
    intro h
    rcases e with ⟨k, v⟩
    obtain ⟨⟨s, hs⟩, ⟨cv, hcv⟩⟩ := h (k, v) (List.mem_cons_self _ _)
    have hs' : k = PyKey.str s := hs
    have hcv' : dumpVal v = some cv := hcv
    subst hs'
    rcases t with _ | ⟨e₂, t₂⟩
    · exact ⟨encodeString s ++ ':' :: ' ' :: cv, by rw [dumpPairs, hcv']⟩
    · obtain ⟨cr, hcr⟩ := ih (fun p hp => h p (List.mem_cons_of_mem _ hp))
      exact ⟨encodeString s ++ ':' :: ' ' :: cv ++ ',' :: ' ' :: cr,
        by rw [dumpPairs, hcv', hcr]⟩

/-- `json.dumps(…, sort_keys=True)` succeeds on every well-formed value:
key-sorting preserves the string-keyed shape and every subvalue encodes. -/
theorem canon_dump (N : Nat) :
    (∀ v, pySize v < N → wfKeys v = true →
      ∃ cs, dumpVal (canon v) = some cs) ∧
    (∀ xs, pySizeList xs < N → wfKeysList xs = true →
      ∃ body, dumpItems (canonList xs) = some body) ∧
    (∀ es, pySizeDict es < N →
      (es.all fun kv => match kv.1 with | .str _ => true | _ => false) = true →
      wfKeysDict es = true →
      ∀ p ∈ canonDict es,
        (∃ s, p.1 = PyKey.str s) ∧ ∃ cs, dumpVal p.2 = some cs) := by
  induction N with
  | zero =>
    exact ⟨fun v h => absurd h (by omega), fun xs h => absurd h (by omega),
      fun es h => absurd h (by omega)⟩
  | succ n ih =>
    obtain ⟨ihV, ihI, ihD⟩ := ih
    refine ⟨?_, ?_, ?_⟩
    · intro v hN hwf
      rcases v with s | m | b | _ | xs | entries
      · exact ⟨encodeString s, by rw [canon, dumpVal]⟩
      · exact ⟨intRepr m, by rw [canon, dumpVal]⟩
      · rcases b with _ | _
        · exact ⟨['f', 'a', 'l', 's', 'e'], by rw [canon, dumpVal]⟩
        · exact ⟨['t', 'r', 'u', 'e'], by rw [canon, dumpVal]⟩
      · exact ⟨['n', 'u', 'l', 'l'], by rw [canon, dumpVal]⟩
      · rw [wfKeys] at hwf
        obtain ⟨body, hbody⟩ := ihI xs (by rw [pySize] at hN; omega) hwf
        exact ⟨'[' :: body ++ [']'], by rw [canon, dumpVal, hbody]⟩
      · rw [wfKeys] at hwf
        rw [Bool.and_eq_true, Bool.and_eq_true] at hwf
        obtain ⟨⟨hall, _⟩, hdict⟩ := hwf
        obtain ⟨body, hbody⟩ := dumpPairs_of_forall
          (sortPairsByKey (canonDict entries))
          (fun p hp => ihD entries (by rw [pySize] at hN; omega) hall hdict p
            ((sortPairsByKey_perm (canonDict entries)).mem_iff.mp hp))
        exact ⟨'\x7b' :: body ++ ['\x7d'], by rw [canon, dumpVal, hbody]⟩
    · intro xs hN hwf
      rcases xs with _ | ⟨x, t⟩
      · exact ⟨[], by rw [canonList, dumpItems]⟩
      · rw [wfKeysList, Bool.and_eq_true] at hwf
        rcases t with _ | ⟨y, t₂⟩
        · obtain ⟨cx, hcx⟩ := ihV x
            (by simp only [pySizeList] at hN; omega) hwf.1
          exact ⟨cx, by rw [canonList, canonList, dumpItems, hcx]⟩
        · obtain ⟨cx, hcx⟩ := ihV x
            (by simp only [pySizeList] at hN; have := pySize_pos y; omega)
            hwf.1
          obtain ⟨cr, hcr⟩ := ihI (y :: t₂)
            (by simp only [pySizeList] at hN ⊢; have := pySize_pos x; omega)
            hwf.2
          rw [canonList] at hcr
          exact ⟨cx ++ ',' :: ' ' :: cr,
            by rw [canonList, canonList, dumpItems, hcx, hcr]⟩
    · intro es hN hall hwfd p hp
      rcases es with _ | ⟨⟨k, v⟩, t⟩
      · rw [canonDict] at hp
        exact absurd hp (by simp)
      · rw [canonDict] at hp
        rw [wfKeysDict, Bool.and_eq_true] at hwfd
        simp only [List.all_cons, Bool.and_eq_true] at hall
        rcases List.mem_cons.mp hp with h | h
        · subst h
          constructor
          · rcases k with s | _
            · exact ⟨s, rfl⟩
            · exact absurd hall.1 (by simp)
          · exact ihV v (by simp only [pySizeDict] at hN; omega) hwfd.1
        · exact ihD t
            (by simp only [pySizeDict] at hN; have := pySize_pos v; omega)
            hall.2 hwfd.2 p h

/-- Key-sorting every dictionary yields a value Python-equal to the
original whenever all keys are strings and pairwise distinct. -/
theorem canon_eq (N : Nat) :
    (∀ v, pySize v < N → wfKeys v = true → pyEq (canon v) v = true) ∧
    (∀ xs, pySizeList xs < N → wfKeysList xs = true →
      pyEqList (canonList xs) xs = true) ∧
    (∀ es, pySizeDict es < N → wfKeysDict es = true →
      ∀ p ∈ canonDict es, ∃ w, (p.1, w) ∈ es ∧ pyEq p.2 w = true) := by
  induction N with
  | zero =>
    exact ⟨fun v h => absurd h (by omega), fun xs h => absurd h (by omega),
      fun es h => absurd h (by omega)⟩
  | succ n ih =>
    obtain ⟨ihV, ihI, ihD⟩ := ih
    refine ⟨?_, ?_, ?_⟩
    · intro v hN hwf
      rcases v with s | m | b | _ | xs | entries
      · rw [canon, pyEq]
        simp
      · rw [canon, pyEq]
        simp
      · rw [canon, pyEq]
        simp
      · rw [canon, pyEq]
      · rw [canon, pyEq]
        rw [wfKeys] at hwf
        exact ihI xs (by rw [pySize] at hN; omega) hwf
      · rw [canon, pyEq]
        rw [wfKeys] at hwf
        rw [Bool.and_eq_true, Bool.and_eq_true] at hwf
        obtain ⟨⟨_, hnd⟩, hdict⟩ := hwf
        rw [Bool.and_eq_true]
        constructor
        · simp only [beq_iff_eq]
          rw [(sortPairsByKey_perm (canonDict entries)).length_eq,
            canonDict_length]
        · refine pyEqDict_of_forall entries _ (fun p hp => ?_)
          obtain ⟨w, hw, heq⟩ := ihD entries
            (by rw [pySize] at hN; omega) hdict p
            ((sortPairsByKey_perm (canonDict entries)).mem_iff.mp hp)
          exact ⟨w, dictGet_of_mem_nodup entries p.1 w hw
            (of_decide_eq_true hnd), heq⟩
    · intro xs hN hwf
      rcases xs with _ | ⟨x, t⟩
      · rw [canonList, pyEqList]
      · rw [wfKeysList, Bool.and_eq_true] at hwf
        rw [canonList, pyEqList, Bool.and_eq_true]
        constructor
        · exact ihV x
            (by simp only [pySizeList] at hN; omega) hwf.1
        · exact ihI t
            (by simp only [pySizeList] at hN; have := pySize_pos x; omega)
            hwf.2
    · intro es hN hwfd p hp
      rcases es with _ | ⟨⟨k, v⟩, t⟩
      · rw [canonDict] at hp
        exact absurd hp (by simp)
      · rw [canonDict] at hp
        rw [wfKeysDict, Bool.and_eq_true] at hwfd
        rcases List.mem_cons.mp hp with h | h
        · subst h
          exact ⟨v, by simp,
            ihV v (by simp only [pySizeDict] at hN; omega) hwfd.1⟩
        · obtain ⟨w, hw, heq⟩ := ihD t
            (by simp only [pySizeDict] at hN; have := pySize_pos v; omega)
            hwfd.2 p h
          exact ⟨w, List.mem_cons_of_mem _ hw, heq⟩

/-- C8: the metadata written onto a tagged window
(`set_window_xsessionp_metadata`, xsessionp.py lines 327-331 and 399-418)
is `json.dumps(obj=window, sort_keys=True)` — the sorted-keys JSON
encoding of the fully merged window entry — and for every window entry
(string keys, pairwise distinct, as produced by the YAML/JSON
configuration parser) that encoding succeeds and `json.loads` of it
(cli.py) yields a dictionary Python-equal to the original entry in all
fields, including `id`: a round trip. -/
theorem metadata_json_round_trip (window : PyDict)
    (hwf : wfKeys (.vdict window) = true) :
    ∃ cs w, dumps (.vdict window) = some cs ∧ loads cs = some w ∧
      pyEq w (.vdict window) = true := by
  obtain ⟨cs, hdump⟩ :=
    (canon_dump (pySize (.vdict window) + 1)).1 _ (by omega) hwf
  exact ⟨cs, canon (.vdict window), hdump, loads_dumps _ cs hdump,
    (canon_eq (pySize (.vdict window) + 1)).1 _ (by omega) hwf⟩

theorem metadata_json_round_trip_witness :
    wfKeys (.vdict [(PyKey.str "command", .vstr "xclock"),
      (PyKey.str "id", .vint 42)]) = true ∧
    ∃ cs w, dumps (.vdict [(PyKey.str "command", .vstr "xclock"),
        (PyKey.str "id", .vint 42)]) = some cs ∧ loads cs = some w ∧
      pyEq w (.vdict [(PyKey.str "command", .vstr "xclock"),
        (PyKey.str "id", .vint 42)]) = true :=
  ⟨by simp [wfKeys, wfKeysDict],
    metadata_json_round_trip _ (by simp [wfKeys, wfKeysDict])⟩

end Xsessionp
